import Mathlib

/-
Verification development for the lil-json crate (src/lib.rs): a no-heap,
single-level JSON object/array encoder-decoder.  Bytes are modelled as
`List Nat` (u8 values), parsed strings as the byte lists the escape buffer
holds, and the `i64` value space as `Int` with explicit two-power-63 range
checks.  Every definition below is a direct transcription of the
corresponding Rust item; loops are transcribed with an explicit fuel
parameter that callers instantiate with `data.length + 1`, which exceeds the
number of iterations of each source loop because every iteration strictly
advances the data index (fuel exhaustion returns the same result as the
source loop's natural end-of-data exit, and fuel-irrelevance lemmas below
make this exact).
-/

namespace LilJson

/-- Failure taxonomy of the parser (enum JsonParseFailure in lib.rs). -/
inductive JsonParseFailure where
  | Incomplete
  | FieldBufferTooSmall
  | EscapeBufferTooSmall
  | InvalidStructure
  | InvalidStringField
  | InvalidNumericField
  | NumberParseError
  | InvalidBooleanField
  | InvalidNullField
deriving DecidableEq, Repr

/-- Terminal JSON value (enum JsonValue in lib.rs); string payloads are byte lists. -/
inductive JsonValue where
  | String (s : List Nat)
  | Boolean (b : Bool)
  | Number (n : Int)
  | Null
deriving DecidableEq, Repr

/-- A key/value pair of a JSON object (struct JsonField in lib.rs). -/
structure JsonField where
  key : List Nat
  value : JsonValue
deriving DecidableEq, Repr

/-- Sentinel field, key "" and value Null (const EMPTY_FIELD in lib.rs). -/
def EMPTY_FIELD : JsonField := ⟨[], JsonValue.Null⟩

/-- Byte predicate of u8::is_ascii_whitespace: space, tab, LF, FF, CR. -/
def isAsciiWhitespace (b : Nat) : Bool :=
  b == 0x20 || b == 0x09 || b == 0x0A || b == 0x0C || b == 0x0D

/-- Byte predicate for an ASCII digit 0-9, as used by skip_numeric. -/
def isAsciiDigit (b : Nat) : Bool :=
  0x30 ≤ b && b ≤ 0x39

/-- Index reached by the whitespace-skipping loop of skip_whitespace in lib.rs. -/
def skipWsIdx (data : List Nat) : Nat → Nat → Nat
  | 0, i => i
  | fuel+1, i =>
    if i < data.length && isAsciiWhitespace (data.getD i 0) then skipWsIdx data fuel (i+1)
    else i

/-- Transcription of skip_whitespace in lib.rs. -/
def skip_whitespace (i : Nat) (data : List Nat) : Except JsonParseFailure Nat :=
  if skipWsIdx data (data.length + 1) i = data.length then .error .Incomplete
  else .ok (skipWsIdx data (data.length + 1) i)

/-- Index reached by the digit-skipping loop of skip_numeric in lib.rs. -/
def skipNumIdx (data : List Nat) : Nat → Nat → Nat
  | 0, i => i
  | fuel+1, i =>
    if i < data.length && isAsciiDigit (data.getD i 0) then skipNumIdx data fuel (i+1)
    else i

/-- Transcription of skip_numeric in lib.rs: skip digits, then require
whitespace, comma or closing curly bracket (end of data is Incomplete). -/
def skip_numeric (i : Nat) (data : List Nat) : Except JsonParseFailure Nat :=
  if skipNumIdx data (data.length + 1) i = data.length then .error .Incomplete
  else if isAsciiWhitespace (data.getD (skipNumIdx data (data.length + 1) i) 0) ||
      data.getD (skipNumIdx data (data.length + 1) i) 0 == 0x2C ||
      data.getD (skipNumIdx data (data.length + 1) i) 0 == 0x7D then
    .ok (skipNumIdx data (data.length + 1) i)
  else .error .InvalidNumericField

/-- Recursion of skip_literal in lib.rs over the remaining target bytes. -/
def skipLiteralAux (data : List Nat) (err : JsonParseFailure) :
    Nat → List Nat → Except JsonParseFailure Nat
  | i, [] => .ok i
  | i, t :: ts =>
    if i < data.length then
      if data.getD i 0 == t then skipLiteralAux data err (i+1) ts
      else .error err
    else .error .Incomplete

/-- Transcription of skip_literal in lib.rs. -/
def skip_literal (i : Nat) (data : List Nat) (target : List Nat) (err : JsonParseFailure) :
    Except JsonParseFailure Nat :=
  skipLiteralAux data err i target

/-- Bytes of the literal null. -/
def nullLiteral : List Nat := [0x6E, 0x75, 0x6C, 0x6C]

/-- Bytes of the literal true. -/
def trueLiteral : List Nat := [0x74, 0x72, 0x75, 0x65]

/-- Bytes of the literal false. -/
def falseLiteral : List Nat := [0x66, 0x61, 0x6C, 0x73, 0x65]

/-- Decimal digit accumulation used to model str::parse for i64. -/
def digitsToNat (ds : List Nat) : Nat :=
  ds.foldl (fun acc d => acc * 10 + (d - 0x30)) 0

/-- Model of str::parse to i64 as called in lib.rs: optional leading minus,
one or more ASCII digits, and a signed 64-bit range check; anything else is
a parse failure (mapped to NumberParseError by the callers). -/
def parse_i64 (bs : List Nat) : Option Int :=
  let neg := bs.headD 0 == 0x2D
  let ds := if neg then bs.tail else bs
  if ds.isEmpty then none
  else if !(ds.all isAsciiDigit) then none
  else
    let v : Int := if neg then -(digitsToNat ds : Int) else (digitsToNat ds : Int)
    if -(2 ^ 63 : Int) ≤ v && v < 2 ^ 63 then some v else none

/-- Slice data[a..b] of a byte list. -/
def sliceBytes (data : List Nat) (a b : Nat) : List Nat :=
  (data.take b).drop a

/-- Finite string escape buffer (StringBuffer::Finite in lib.rs).  The Rust
value is a cursor position plus a mutable slice; since the slice contents
before the cursor are exactly the bytes written since the last consume, the
state is represented by those bytes plus the remaining capacity
(slice.len() - position). -/
structure StringBuffer where
  written : List Nat
  free : Nat
deriving DecidableEq, Repr

/-- Transcription of StringBuffer::write_part for the Finite variant. -/
def StringBuffer.write_part (sb : StringBuffer) (s : List Nat) :
    Except JsonParseFailure StringBuffer :=
  if s.length = 0 then .ok sb
  else if sb.free < s.length then .error .EscapeBufferTooSmall
  else .ok ⟨sb.written ++ s, sb.free - s.length⟩

/-- Transcription of StringBuffer::consume_string for the Finite variant:
returns the written bytes and resets the cursor, keeping the remaining
capacity. -/
def StringBuffer.consume_string (sb : StringBuffer) : List Nat × StringBuffer :=
  (sb.written, ⟨[], sb.free⟩)

/-- Transcription of get_required_unescaped_char in lib.rs, on byte values. -/
def get_required_unescaped_char (c : Nat) : Option Nat :=
  if c == 0x22 then some 0x22
  else if c == 0x5C then some 0x5C
  else if c == 0x2F then some 0x2F
  else if c == 0x62 then some 0x08
  else if c == 0x66 then some 0x0C
  else if c == 0x6E then some 0x0A
  else if c == 0x72 then some 0x0D
  else if c == 0x74 then some 0x09
  else none

/-- Transcription of get_required_escape_sequence in lib.rs, on byte values:
the two-byte escape sequence (backslash then marker byte) for the eight
escapable characters. -/
def get_required_escape_sequence (c : Nat) : Option (List Nat) :=
  if c == 0x22 then some [0x5C, 0x22]
  else if c == 0x5C then some [0x5C, 0x5C]
  else if c == 0x2F then some [0x5C, 0x2F]
  else if c == 0x08 then some [0x5C, 0x62]
  else if c == 0x0C then some [0x5C, 0x66]
  else if c == 0x0A then some [0x5C, 0x6E]
  else if c == 0x0D then some [0x5C, 0x72]
  else if c == 0x09 then some [0x5C, 0x74]
  else none

/-- Main loop of unescape_json_string in lib.rs, after the opening quote:
reject non-ASCII bytes, resolve a pending escape through the table, start an
escape on a backslash, finish on a bare quote, copy everything else. -/
def unescapeLoop (data : List Nat) : Nat → Nat → Bool → StringBuffer →
    Except JsonParseFailure (Nat × List Nat × StringBuffer)
  | 0, _, _, _ => .error .Incomplete
  | fuel+1, i, escFlag, sb =>
    if i < data.length then
      if 0x80 ≤ data.getD i 0 then .error .InvalidStringField
      else if escFlag then
        match get_required_unescaped_char (data.getD i 0) with
        | some u =>
          match sb.write_part [u] with
          | .error e => .error e
          | .ok sb1 => unescapeLoop data fuel (i+1) false sb1
        | none => .error .InvalidStringField
      else if data.getD i 0 == 0x5C then unescapeLoop data fuel (i+1) true sb
      else if data.getD i 0 == 0x22 then .ok (i+1, sb.consume_string.1, sb.consume_string.2)
      else
        match sb.write_part [data.getD i 0] with
        | .error e => .error e
        | .ok sb1 => unescapeLoop data fuel (i+1) false sb1
    else .error .Incomplete

/-- Transcription of unescape_json_string in lib.rs: require an opening
quote at the current index, then run the unescape loop.  Returns the index
after the closing quote, the unescaped bytes, and the updated buffer. -/
def unescape_json_string (i : Nat) (data : List Nat) (sb : StringBuffer) :
    Except JsonParseFailure (Nat × List Nat × StringBuffer) :=
  if data.getD i 0 == 0x22 then unescapeLoop data (data.length + 1) (i+1) false sb
  else .error .InvalidStringField

/-- Field storage handed to the parser (enum ParseBuffer in lib.rs): a
cursor position plus either a fixed slice of slots or a growable vector. -/
inductive ParseBuffer where
  | Finite (position : Nat) (slots : List JsonField)
  | Infinite (position : Nat) (vec : List JsonField)
deriving DecidableEq, Repr

/-- Transcription of ParseBuffer::write_thing in lib.rs. -/
def ParseBuffer.write_thing (fb : ParseBuffer) (thing : JsonField) :
    Except JsonParseFailure ParseBuffer :=
  match fb with
  | .Finite position slots =>
    if position = slots.length then .error .FieldBufferTooSmall
    else .ok (.Finite (position + 1) (slots.set position thing))
  | .Infinite position vec =>
    if position < vec.length then .ok (.Infinite (position + 1) (vec.set position thing))
    else .ok (.Infinite (position + 1) (vec ++ [thing]))

/-- Transcription of ParseBuffer::consume in lib.rs. -/
def ParseBuffer.consume : ParseBuffer → Nat
  | .Finite n _ => n
  | .Infinite n _ => n

/-- Underlying slot list of a parse buffer. -/
def ParseBuffer.slotList : ParseBuffer → List JsonField
  | .Finite _ s => s
  | .Infinite _ v => v

/-- Main loop of parse_json_object in lib.rs, entered just after the opening
curly bracket.  Per iteration: skip whitespace; a closing bracket finishes
the scan; otherwise either a mandatory comma separates entries, or a
key/colon/value triple is parsed and written to the field buffer.  Value
dispatch follows the source order: quote, n, t/f, minus, digit range
(the digit test is the source's 0x30 ≤ c < 0x39), anything else is
InvalidStructure.  Running out of data is Incomplete. -/
def parseLoop (data : List Nat) : Nat → Nat → Bool → ParseBuffer → StringBuffer →
    Except JsonParseFailure (Nat × Nat × ParseBuffer × StringBuffer)
  | 0, _, _, _, _ => .error .Incomplete
  | fuel+1, i, needComma, fb, sb =>
    if i < data.length then
      match skip_whitespace i data with
      | .error e => .error e
      | .ok j =>
        if data.getD j 0 == 0x7D then .ok (j + 1, fb.consume, fb, sb)
        else if needComma then
          if data.getD j 0 == 0x2C then parseLoop data fuel (j+1) false fb sb
          else .error .InvalidStructure
        else
          match unescape_json_string j data sb with
          | .error e => .error e
          | .ok (j1, stringKey, sb1) =>
            match skip_whitespace j1 data with
            | .error e => .error e
            | .ok j2 =>
              if data.getD j2 0 == 0x3A then
                match skip_whitespace (j2+1) data with
                | .error e => .error e
                | .ok j3 =>
                  if data.getD j3 0 == 0x22 then
                    match unescape_json_string j3 data sb1 with
                    | .error e => .error e
                    | .ok (j4, sval, sb2) =>
                      match fb.write_thing ⟨stringKey, .String sval⟩ with
                      | .error e => .error e
                      | .ok fb1 => parseLoop data fuel j4 true fb1 sb2
                  else if data.getD j3 0 == 0x6E then
                    match skip_literal j3 data nullLiteral .InvalidBooleanField with
                    | .error e => .error e
                    | .ok j4 =>
                      match fb.write_thing ⟨stringKey, .Null⟩ with
                      | .error e => .error e
                      | .ok fb1 => parseLoop data fuel j4 true fb1 sb1
                  else if data.getD j3 0 == 0x74 || data.getD j3 0 == 0x66 then
                    match skip_literal j3 data
                        (if data.getD j3 0 == 0x74 then trueLiteral else falseLiteral)
                        .InvalidBooleanField with
                    | .error e => .error e
                    | .ok j4 =>
                      match fb.write_thing ⟨stringKey, .Boolean (data.getD j3 0 == 0x74)⟩ with
                      | .error e => .error e
                      | .ok fb1 => parseLoop data fuel j4 true fb1 sb1
                  else if data.getD j3 0 == 0x2D then
                    match skip_numeric (j3+1) data with
                    | .error e => .error e
                    | .ok j5 =>
                      if j5 - j3 = 1 then .error .InvalidNumericField
                      else
                        match parse_i64 (sliceBytes data j3 j5) with
                        | none => .error .NumberParseError
                        | some v =>
                          match fb.write_thing ⟨stringKey, .Number v⟩ with
                          | .error e => .error e
                          | .ok fb1 => parseLoop data fuel j5 true fb1 sb1
                  else if 0x30 ≤ data.getD j3 0 && data.getD j3 0 < 0x39 then
                    match skip_numeric (j3+1) data with
                    | .error e => .error e
                    | .ok j5 =>
                      match parse_i64 (sliceBytes data j3 j5) with
                      | none => .error .NumberParseError
                      | some v =>
                        match fb.write_thing ⟨stringKey, .Number v⟩ with
                        | .error e => .error e
                        | .ok fb1 => parseLoop data fuel j5 true fb1 sb1
                  else .error .InvalidStructure
              else .error .InvalidStructure
    else .error .Incomplete

/-- Transcription of parse_json_object in lib.rs: skip leading whitespace,
require an opening curly bracket, then run the object loop.  Returns
(bytes consumed, fields parsed) together with the final buffers. -/
def parse_json_object (data : List Nat) (fb : ParseBuffer) (sb : StringBuffer) :
    Except JsonParseFailure (Nat × Nat × ParseBuffer × StringBuffer) :=
  match skip_whitespace 0 data with
  | .error e => .error e
  | .ok i =>
    if data.getD i 0 == 0x7B then parseLoop data (data.length + 1) (i+1) false fb sb
    else .error .InvalidStructure

/-
Checked transcriptions.  The Rust parser indexes `data[i]` and slices
`&data[a..b]` directly in several places and calls
`core::str::from_utf8(..).expect(..)`; each such operation panics when its
precondition fails.  The checked functions below model exactly those
operations as fallible (`none` = panic, a stricter ASCII check standing in
for UTF-8 validity, so panic-freedom here implies panic-freedom in the
source); everything already guarded by an explicit bounds check in the
source is shared with the total transcription above.
-/

/-- Checked slice data[a..b]: panics (none) unless a ≤ b ≤ data.length. -/
def sliceChecked (data : List Nat) (a b : Nat) : Option (List Nat) :=
  if a ≤ b ∧ b ≤ data.length then some (sliceBytes data a b) else none

/-- Checked model of from_utf8(..).expect(..): succeeds when all bytes are
ASCII (a sufficient condition for UTF-8 validity, met by sign/digit runs). -/
def asciiStrChecked (bs : List Nat) : Option (List Nat) :=
  if bs.all (fun b => b < 0x80) then some bs else none

/-- Checked transcription of unescape_json_string: the opening-quote test
indexes the data slice without a preceding bounds check. -/
def unescape_json_string_c (i : Nat) (data : List Nat) (sb : StringBuffer) :
    Option (Except JsonParseFailure (Nat × List Nat × StringBuffer)) :=
  match data[i]? with
  | none => none
  | some c =>
    if c == 0x22 then some (unescapeLoop data (data.length + 1) (i+1) false sb)
    else some (.error .InvalidStringField)

/-- Checked transcription of the parse_json_object loop, with every
unguarded index, slice and expect modeled as fallible. -/
def parseLoop_c (data : List Nat) : Nat → Nat → Bool → ParseBuffer → StringBuffer →
    Option (Except JsonParseFailure (Nat × Nat × ParseBuffer × StringBuffer))
  | 0, _, _, _, _ => some (.error .Incomplete)
  | fuel+1, i, needComma, fb, sb =>
    if i < data.length then
      match skip_whitespace i data with
      | .error e => some (.error e)
      | .ok j =>
        match data[j]? with
        | none => none
        | some cj =>
          if cj == 0x7D then some (.ok (j + 1, fb.consume, fb, sb))
          else if needComma then
            if cj == 0x2C then parseLoop_c data fuel (j+1) false fb sb
            else some (.error .InvalidStructure)
          else
            match unescape_json_string_c j data sb with
            | none => none
            | some r =>
              match r with
              | .error e => some (.error e)
              | .ok (j1, stringKey, sb1) =>
              match skip_whitespace j1 data with
              | .error e => some (.error e)
              | .ok j2 =>
                match data[j2]? with
                | none => none
                | some cj2 =>
                  if cj2 == 0x3A then
                    match skip_whitespace (j2+1) data with
                    | .error e => some (.error e)
                    | .ok j3 =>
                      match data[j3]? with
                      | none => none
                      | some c3 =>
                        if c3 == 0x22 then
                          match unescape_json_string_c j3 data sb1 with
                          | none => none
                          | some r2 =>
                            match r2 with
                            | .error e => some (.error e)
                            | .ok (j4, sval, sb2) =>
                              match fb.write_thing ⟨stringKey, .String sval⟩ with
                              | .error e => some (.error e)
                              | .ok fb1 => parseLoop_c data fuel j4 true fb1 sb2
                        else if c3 == 0x6E then
                          match skip_literal j3 data nullLiteral .InvalidBooleanField with
                          | .error e => some (.error e)
                          | .ok j4 =>
                            match fb.write_thing ⟨stringKey, .Null⟩ with
                            | .error e => some (.error e)
                            | .ok fb1 => parseLoop_c data fuel j4 true fb1 sb1
                        else if c3 == 0x74 || c3 == 0x66 then
                          match skip_literal j3 data (if c3 == 0x74 then trueLiteral else falseLiteral)
                              .InvalidBooleanField with
                          | .error e => some (.error e)
                          | .ok j4 =>
                            match fb.write_thing ⟨stringKey, .Boolean (c3 == 0x74)⟩ with
                            | .error e => some (.error e)
                            | .ok fb1 => parseLoop_c data fuel j4 true fb1 sb1
                        else if c3 == 0x2D then
                          match skip_numeric (j3+1) data with
                          | .error e => some (.error e)
                          | .ok j5 =>
                            if j5 - j3 = 1 then some (.error .InvalidNumericField)
                            else
                              match sliceChecked data j3 j5 with
                              | none => none
                              | some raw =>
                                match asciiStrChecked raw with
                                | none => none
                                | some numstr =>
                                  match parse_i64 numstr with
                                  | none => some (.error .NumberParseError)
                                  | some v =>
                                    match fb.write_thing ⟨stringKey, .Number v⟩ with
                                    | .error e => some (.error e)
                                    | .ok fb1 => parseLoop_c data fuel j5 true fb1 sb1
                        else if 0x30 ≤ c3 && c3 < 0x39 then
                          match skip_numeric (j3+1) data with
                          | .error e => some (.error e)
                          | .ok j5 =>
                            match sliceChecked data j3 j5 with
                            | none => none
                            | some raw =>
                              match asciiStrChecked raw with
                              | none => none
                              | some numstr =>
                                match parse_i64 numstr with
                                | none => some (.error .NumberParseError)
                                | some v =>
                                  match fb.write_thing ⟨stringKey, .Number v⟩ with
                                  | .error e => some (.error e)
                                  | .ok fb1 => parseLoop_c data fuel j5 true fb1 sb1
                        else some (.error .InvalidStructure)
                  else some (.error .InvalidStructure)
    else some (.error .Incomplete)

/-- Checked transcription of parse_json_object: the opening-bracket test
indexes the data slice without a preceding bounds check. -/
def parse_json_object_c (data : List Nat) (fb : ParseBuffer) (sb : StringBuffer) :
    Option (Except JsonParseFailure (Nat × Nat × ParseBuffer × StringBuffer)) :=
  match skip_whitespace 0 data with
  | .error e => some (.error e)
  | .ok i =>
    match data[i]? with
    | none => none
    | some c =>
      if c == 0x7B then parseLoop_c data (data.length + 1) (i+1) false fb sb
      else some (.error .InvalidStructure)

/-
Serializer.  All bytes the serializer emits are ASCII (non-ASCII characters
of a string are skipped before reaching the sink, escape sequences and
literal tokens are ASCII, numbers render as sign and digits), so every
character chunk is one byte and the byte-level transcription below is
exact.  The sink is the non-failing one of the claims: an unbounded byte
accumulator.  A serializer state is the running counter of logical bytes
produced together with the bytes actually written to the sink.
-/

/-- Serializer state: logical byte counter and sink contents. -/
structure SerState where
  counter : Nat
  out : List Nat
deriving DecidableEq, Repr

/-- Transcription of tracked_write in lib.rs against a non-failing sink:
each byte is counted, and written only once the counter has reached the
resume offset. -/
def tracked_write (resume : Nat) (st : SerState) (s : List Nat) : SerState :=
  s.foldl (fun acc b =>
    if acc.counter < resume then ⟨acc.counter + 1, acc.out⟩
    else ⟨acc.counter + 1, acc.out ++ [b]⟩) st

/-- Transcription of write_escaped_json_string in lib.rs: an opening quote,
then per character skip non-ASCII, emit the escape sequence for the eight
table characters, copy other characters, then a closing quote. -/
def write_escaped_json_string (resume : Nat) (st : SerState) (s : List Nat) : SerState :=
  let st1 := tracked_write resume st [0x22]
  let st2 := s.foldl (fun acc b =>
    if 0x80 ≤ b then acc
    else match get_required_escape_sequence b with
      | some esc => tracked_write resume acc esc
      | none => tracked_write resume acc [b]) st1
  tracked_write resume st2 [0x22]

/-- Decimal digit run of a positive number, most significant digit first
(model of the numtoa base10 rendering used in lib.rs). -/
def natDecimalAux : Nat → Nat → List Nat
  | 0, _ => []
  | fuel+1, n =>
    if n = 0 then []
    else natDecimalAux fuel (n / 10) ++ [0x30 + n % 10]

/-- Canonical decimal rendering of a natural number. -/
def natDecimal (n : Nat) : List Nat :=
  if n = 0 then [0x30] else natDecimalAux n n

/-- Canonical decimal rendering of a signed 64-bit number: minus sign only
when negative, no leading zeros. -/
def intDecimal (v : Int) : List Nat :=
  if v < 0 then 0x2D :: natDecimal (-v).toNat else natDecimal v.toNat

/-- Value rendering step of serialize_json_object in lib.rs. -/
def serializeValue (resume : Nat) (st : SerState) (v : JsonValue) : SerState :=
  match v with
  | .Boolean true => tracked_write resume st trueLiteral
  | .Boolean false => tracked_write resume st falseLiteral
  | .Null => tracked_write resume st nullLiteral
  | .Number n => tracked_write resume st (intDecimal n)
  | .String s => write_escaped_json_string resume st s

/-- Transcription of serialize_json_object in lib.rs against a non-failing
sink: opening bracket, comma-separated escaped-key/colon/value entries,
closing bracket; returns the sink contents and the saturating difference of
the logical total and the resume offset (the Ok value of the source). -/
def serialize_json_object (fields : List JsonField) (resume : Nat) : List Nat × Nat :=
  let st0 := tracked_write resume ⟨0, []⟩ [0x7B]
  let stp := fields.foldl (fun (acc : Bool × SerState) field =>
      let stA := if acc.1 then tracked_write resume acc.2 [0x2C] else acc.2
      let stB := write_escaped_json_string resume stA field.key
      let stC := tracked_write resume stB [0x3A]
      (true, serializeValue resume stC field.value)) (false, st0)
  let stF := tracked_write resume stp.2 [0x7D]
  (stF.out, stF.counter - resume)

/-
Container level (struct JsonObject in lib.rs): a field buffer plus the
count of initialized leading slots.
-/

/-- A JSON object container: a slot buffer plus an initialized count. -/
structure JsonObject where
  fields : List JsonField
  num_fields : Nat
deriving DecidableEq, Repr

/-- Transcription of JsonObject::wrap: no slot is considered initialized. -/
def JsonObject.wrap (fs : List JsonField) : JsonObject := ⟨fs, 0⟩

/-- Transcription of JsonObject::wrap_init: all slots considered initialized. -/
def JsonObject.wrap_init (fs : List JsonField) : JsonObject := ⟨fs, fs.length⟩

/-- Transcription of JsonObject::capacity. -/
def JsonObject.capacity (o : JsonObject) : Nat := o.fields.length

/-- Transcription of JsonObject::len. -/
def JsonObject.numInit (o : JsonObject) : Nat := o.num_fields

/-- Transcription of JsonObject::fields: the initialized leading slots. -/
def JsonObject.fieldsView (o : JsonObject) : List JsonField :=
  o.fields.take o.num_fields

/-- Transcription of JsonObject::push: refuse when full, else write the
field into the next slot and bump the count. -/
def JsonObject.push (o : JsonObject) (f : JsonField) : Except JsonField JsonObject :=
  if o.num_fields = o.fields.length then .error f
  else .ok ⟨o.fields.set o.num_fields f, o.num_fields + 1⟩

/-- Transcription of JsonObject::push_field. -/
def JsonObject.push_field (o : JsonObject) (key : List Nat) (value : JsonValue) :
    Except Unit JsonObject :=
  if o.num_fields = o.fields.length then .error ()
  else .ok ⟨o.fields.set o.num_fields ⟨key, value⟩, o.num_fields + 1⟩

/-- Transcription of JsonObject::pop, with the slot read modeled as
checked: the source decrements num_fields and then reads (with mem::take,
which leaves the default field behind) the slot at index num_fields + 1 of
the buffer; the outer none is the out-of-bounds panic of that read. -/
def JsonObject.pop (o : JsonObject) : Option (Option (JsonField × JsonObject)) :=
  if o.num_fields = 0 then some none
  else
    let nf := o.num_fields - 1
    match o.fields[nf + 1]? with
    | none => none
    | some f => some (some (f, ⟨o.fields.set (nf + 1) EMPTY_FIELD, nf⟩))

/-- Transcription of JsonObject::parse: run the core parser over the wrapped
slots with a fresh finite escape buffer of the given capacity, then adopt
the parsed count. -/
def JsonObject.parse (o : JsonObject) (data : List Nat) (escCapacity : Nat) :
    Except JsonParseFailure (Nat × JsonObject) :=
  match parse_json_object data (.Finite 0 o.fields) ⟨[], escCapacity⟩ with
  | .error e => .error e
  | .ok (n, cnt, fb, _) => .ok (n, ⟨fb.slotList, cnt⟩)

/-- Transcription of JsonObject::serialize_resume against a non-failing
sink: serialize the initialized slots starting at the given offset. -/
def JsonObject.serialize_resume (o : JsonObject) (resume : Nat) : List Nat × Nat :=
  serialize_json_object o.fieldsView resume

/-- Projection of a parse result that forgets the final field buffer. -/
def dropBuf : Except JsonParseFailure (Nat × Nat × ParseBuffer × StringBuffer) →
    Except JsonParseFailure (Nat × Nat × StringBuffer)
  | .error e => .error e
  | .ok (a, b, _, c) => .ok (a, b, c)

/-- Bytes the serializer logically produces for one string byte: nothing for
non-ASCII, the escape sequence for the eight table characters, the byte
itself otherwise. -/
def escapeByte (b : Nat) : List Nat :=
  if 0x80 ≤ b then []
  else match get_required_escape_sequence b with
    | some esc => esc
    | none => [b]

/-- Concatenated escape rendering of a string body. -/
def escapeBody : List Nat → List Nat
  | [] => []
  | b :: bs => escapeByte b ++ escapeBody bs

/-- Full rendering of a JSON string: quote, escaped body, quote. -/
def escapedStringBytes (s : List Nat) : List Nat :=
  0x22 :: (escapeBody s ++ [0x22])

/-- Bytes the serializer logically produces for one JSON value. -/
def valueBytes : JsonValue → List Nat
  | .Boolean true => trueLiteral
  | .Boolean false => falseLiteral
  | .Null => nullLiteral
  | .Number n => intDecimal n
  | .String s => escapedStringBytes s

/-- Bytes the serializer logically produces for a field list, given whether
a comma is due before the first of them. -/
def fieldsBytes : Bool → List JsonField → List Nat
  | _, [] => []
  | needComma, f :: fs =>
    (if needComma then [0x2C] else []) ++ escapedStringBytes f.key ++ [0x3A] ++
      valueBytes f.value ++ fieldsBytes true fs

/-- Full logical byte stream of a serialized JSON object. -/
def objectBytes (fields : List JsonField) : List Nat :=
  0x7B :: (fieldsBytes false fields ++ [0x7D])

/-- A state transformer W emits the byte chunk A under resume offset r when,
from any serializer state, it adds A.length to the counter and appends to
the sink exactly the part of A past the resume offset. -/
def Emits (W : SerState → SerState) (A : List Nat) (r : Nat) : Prop :=
  ∀ c out, W ⟨c, out⟩ = ⟨c + A.length, out ++ A.drop (r - c)⟩

/-
Lemmas.  First some small list facts, then for each loop of the source:
fuel irrelevance (any fuel beyond the remaining data length gives the same
result), advancement and bounds of the returned index, the checked/total
agreement, and how the loop behaves on a truncation of its input.
-/

theorem getD_take_of_lt {data : List Nat} {m k : Nat} (h : k < m) :
    (data.take m).getD k 0 = data.getD k 0 := by
  simp [List.getD_eq_getElem?_getD, List.getElem?_take_of_lt h]

theorem length_take_of_le {data : List Nat} {m : Nat} (h : m ≤ data.length) :
    (data.take m).length = m := by
  simp [List.length_take, Nat.min_eq_left h]

theorem skipWsIdx_le (data : List Nat) : ∀ fuel i, i ≤ skipWsIdx data fuel i := by
  intro fuel
  induction fuel with
  | zero => intro i; simp [skipWsIdx]
  | succ f ih =>
    intro i
    simp only [skipWsIdx]
    split
    · exact Nat.le_trans (Nat.le_succ i) (ih (i+1))
    · exact Nat.le_refl i

theorem skipWsIdx_le_length (data : List Nat) :
    ∀ fuel i, i ≤ data.length → skipWsIdx data fuel i ≤ data.length := by
  intro fuel
  induction fuel with
  | zero => intro i h; simpa [skipWsIdx] using h
  | succ f ih =>
    intro i h
    simp only [skipWsIdx]
    split
    · next hc =>
      have hi : i < data.length := of_decide_eq_true ((Bool.and_eq_true _ _).mp hc).1
      exact ih (i+1) hi
    · exact h

theorem skipWsIdx_ws_range (data : List Nat) :
    ∀ fuel i k, i ≤ k → k < skipWsIdx data fuel i →
      isAsciiWhitespace (data.getD k 0) = true := by
  intro fuel
  induction fuel with
  | zero => intro i k hik hk; simp only [skipWsIdx] at hk; omega
  | succ f ih =>
    intro i k hik hk
    simp only [skipWsIdx] at hk
    split at hk
    · next hc =>
      have hws := ((Bool.and_eq_true _ _).mp hc).2
      rcases Nat.eq_or_lt_of_le hik with h | h
      · exact h ▸ hws
      · exact ih (i+1) k h hk
    · omega

theorem skipWsIdx_stop (data : List Nat) :
    ∀ fuel i, data.length - i < fuel →
      skipWsIdx data fuel i = data.length ∨
        isAsciiWhitespace (data.getD (skipWsIdx data fuel i) 0) = false := by
  intro fuel
  induction fuel with
  | zero => intro i h; omega
  | succ f ih =>
    intro i h
    simp only [skipWsIdx]
    split
    · next hc =>
      have hi : i < data.length := of_decide_eq_true ((Bool.and_eq_true _ _).mp hc).1
      exact ih (i+1) (by omega)
    · next hc =>
      rw [Bool.not_eq_true] at hc
      rcases Bool.and_eq_false_iff.mp hc with h1 | h2
      · have hge : data.length ≤ i := Nat.le_of_not_lt (of_decide_eq_false h1)
        rcases Nat.eq_or_lt_of_le hge with he | hl
        · left; omega
        · right
          rw [List.getD_eq_default _ _ (by omega)]
          rfl
      · right; exact h2

theorem skipWsIdx_fuel (data : List Nat) :
    ∀ f g i, data.length - i ≤ f → data.length - i ≤ g →
      skipWsIdx data f i = skipWsIdx data g i := by
  intro f
  induction f with
  | zero =>
    intro g i hf _
    have hcond : ¬((decide (i < data.length) && isAsciiWhitespace (data.getD i 0)) = true) := by
      rw [decide_eq_false (by omega : ¬ i < data.length), Bool.false_and]
      exact Bool.false_ne_true
    cases g with
    | zero => rfl
    | succ g =>
      simp only [skipWsIdx]
      rw [if_neg hcond]
  | succ f ih =>
    intro g i hf hg
    by_cases hc : (decide (i < data.length) && isAsciiWhitespace (data.getD i 0)) = true
    · have hi : i < data.length := of_decide_eq_true ((Bool.and_eq_true _ _).mp hc).1
      cases g with
      | zero => omega
      | succ g =>
        simp only [skipWsIdx]
        rw [if_pos hc, if_pos hc]
        exact ih g (i+1) (by omega) (by omega)
    · cases g with
      | zero =>
        simp only [skipWsIdx]
        rw [if_neg hc]
      | succ g =>
        simp only [skipWsIdx]
        rw [if_neg hc, if_neg hc]

theorem skipWsIdx_of_spec (data : List Nat) :
    ∀ fuel i j, data.length - i < fuel → i ≤ j →
      (∀ k, i ≤ k → k < j → isAsciiWhitespace (data.getD k 0) = true) →
      (j = data.length ∨ (j < data.length ∧ isAsciiWhitespace (data.getD j 0) = false)) →
      skipWsIdx data fuel i = j := by
  intro fuel
  induction fuel with
  | zero => intro i j h; omega
  | succ f ih =>
    intro i j hfuel hij hws hstop
    simp only [skipWsIdx]
    rcases Nat.eq_or_lt_of_le hij with heq | hlt
    · subst heq
      have hcond : ¬((decide (i < data.length) && isAsciiWhitespace (data.getD i 0)) = true) := by
        rcases hstop with h | ⟨_, h⟩
        · rw [decide_eq_false (by omega : ¬ i < data.length), Bool.false_and]
          exact Bool.false_ne_true
        · rw [h, Bool.and_false]
          exact Bool.false_ne_true
      rw [if_neg hcond]
    · have hiws : isAsciiWhitespace (data.getD i 0) = true := hws i (Nat.le_refl i) hlt
      have hilen : i < data.length := by
        rcases hstop with h | ⟨h, _⟩ <;> omega
      have hcond : (decide (i < data.length) && isAsciiWhitespace (data.getD i 0)) = true := by
        rw [hiws, decide_eq_true hilen, Bool.and_self]
      rw [if_pos hcond]
      exact ih (i+1) j (by omega) hlt (fun k hk1 hk2 => hws k (by omega) hk2) hstop

theorem skip_whitespace_ok {data : List Nat} {i j : Nat} (hi : i ≤ data.length)
    (h : skip_whitespace i data = .ok j) :
    i ≤ j ∧ j < data.length := by
  unfold skip_whitespace at h
  split at h
  · exact absurd h (by simp)
  · next hne =>
    cases h
    exact ⟨skipWsIdx_le data _ i, Nat.lt_of_le_of_ne (skipWsIdx_le_length data _ i hi) hne⟩

theorem skip_whitespace_ws_range {data : List Nat} {i j : Nat}
    (h : skip_whitespace i data = .ok j) :
    ∀ k, i ≤ k → k < j → isAsciiWhitespace (data.getD k 0) = true := by
  unfold skip_whitespace at h
  split at h
  · exact absurd h (by simp)
  · cases h
    exact fun k hk1 hk2 => skipWsIdx_ws_range data _ i k hk1 hk2

theorem skip_whitespace_stop {data : List Nat} {i j : Nat}
    (h : skip_whitespace i data = .ok j) :
    isAsciiWhitespace (data.getD j 0) = false := by
  unfold skip_whitespace at h
  split at h
  · exact absurd h (by simp)
  · next hne =>
    cases h
    rcases skipWsIdx_stop data (data.length + 1) i (by omega) with h | h
    · exact absurd h hne
    · exact h

theorem skip_whitespace_take {data : List Nat} {m i j : Nat} (hm : m ≤ data.length)
    (hi : i ≤ m) (h : skip_whitespace i data = .ok j) :
    (j < m → skip_whitespace i (data.take m) = .ok j) ∧
      (m ≤ j → skip_whitespace i (data.take m) = .error .Incomplete) := by
  have hlen : (data.take m).length = m := length_take_of_le hm
  have hws := skip_whitespace_ws_range h
  have hij : i ≤ j := (skip_whitespace_ok (by omega) h).1
  have hjlen : j < data.length := (skip_whitespace_ok (by omega) h).2
  have hstop := skip_whitespace_stop h
  constructor
  · intro hjm
    have hT : skipWsIdx (data.take m) ((data.take m).length + 1) i = j := by
      apply skipWsIdx_of_spec
      · omega
      · exact hij
      · intro k hk1 hk2
        rw [getD_take_of_lt (by omega)]
        exact hws k hk1 hk2
      · right
        refine ⟨by omega, ?_⟩
        rw [getD_take_of_lt (by omega)]
        exact hstop
    unfold skip_whitespace
    rw [hT, if_neg (by omega)]
  · intro hmj
    have hT : skipWsIdx (data.take m) ((data.take m).length + 1) i = m := by
      apply skipWsIdx_of_spec
      · omega
      · exact hi
      · intro k hk1 hk2
        rw [getD_take_of_lt (by omega)]
        exact hws k hk1 (by omega)
      · left; omega
    unfold skip_whitespace
    rw [hT, if_pos (by omega)]

theorem skipNumIdx_le (data : List Nat) : ∀ fuel i, i ≤ skipNumIdx data fuel i := by
  intro fuel
  induction fuel with
  | zero => intro i; simp [skipNumIdx]
  | succ f ih =>
    intro i
    simp only [skipNumIdx]
    split
    · exact Nat.le_trans (Nat.le_succ i) (ih (i+1))
    · exact Nat.le_refl i

theorem skipNumIdx_le_length (data : List Nat) :
    ∀ fuel i, i ≤ data.length → skipNumIdx data fuel i ≤ data.length := by
  intro fuel
  induction fuel with
  | zero => intro i h; simpa [skipNumIdx] using h
  | succ f ih =>
    intro i h
    simp only [skipNumIdx]
    split
    · next hc =>
      have hi : i < data.length := of_decide_eq_true ((Bool.and_eq_true _ _).mp hc).1
      exact ih (i+1) hi
    · exact h

theorem skipNumIdx_digit_range (data : List Nat) :
    ∀ fuel i k, i ≤ k → k < skipNumIdx data fuel i →
      isAsciiDigit (data.getD k 0) = true := by
  intro fuel
  induction fuel with
  | zero => intro i k hik hk; simp only [skipNumIdx] at hk; omega
  | succ f ih =>
    intro i k hik hk
    simp only [skipNumIdx] at hk
    split at hk
    · next hc =>
      have hd := ((Bool.and_eq_true _ _).mp hc).2
      rcases Nat.eq_or_lt_of_le hik with h | h
      · exact h ▸ hd
      · exact ih (i+1) k h hk
    · omega

theorem skipNumIdx_stop (data : List Nat) :
    ∀ fuel i, data.length - i < fuel →
      skipNumIdx data fuel i = data.length ∨
        isAsciiDigit (data.getD (skipNumIdx data fuel i) 0) = false := by
  intro fuel
  induction fuel with
  | zero => intro i h; omega
  | succ f ih =>
    intro i h
    simp only [skipNumIdx]
    split
    · next hc =>
      have hi : i < data.length := of_decide_eq_true ((Bool.and_eq_true _ _).mp hc).1
      exact ih (i+1) (by omega)
    · next hc =>
      rw [Bool.not_eq_true] at hc
      rcases Bool.and_eq_false_iff.mp hc with h1 | h2
      · have hge : data.length ≤ i := Nat.le_of_not_lt (of_decide_eq_false h1)
        rcases Nat.eq_or_lt_of_le hge with he | hl
        · left; omega
        · right
          rw [List.getD_eq_default _ _ (by omega)]
          rfl
      · right; exact h2

theorem skipNumIdx_of_spec (data : List Nat) :
    ∀ fuel i j, data.length - i < fuel → i ≤ j →
      (∀ k, i ≤ k → k < j → isAsciiDigit (data.getD k 0) = true) →
      (j = data.length ∨ (j < data.length ∧ isAsciiDigit (data.getD j 0) = false)) →
      skipNumIdx data fuel i = j := by
  intro fuel
  induction fuel with
  | zero => intro i j h; omega
  | succ f ih =>
    intro i j hfuel hij hds hstop
    simp only [skipNumIdx]
    rcases Nat.eq_or_lt_of_le hij with heq | hlt
    · subst heq
      have hcond : ¬((decide (i < data.length) && isAsciiDigit (data.getD i 0)) = true) := by
        rcases hstop with h | ⟨_, h⟩
        · rw [decide_eq_false (by omega : ¬ i < data.length), Bool.false_and]
          exact Bool.false_ne_true
        · rw [h, Bool.and_false]
          exact Bool.false_ne_true
      rw [if_neg hcond]
    · have hid : isAsciiDigit (data.getD i 0) = true := hds i (Nat.le_refl i) hlt
      have hilen : i < data.length := by
        rcases hstop with h | ⟨h, _⟩ <;> omega
      have hcond : (decide (i < data.length) && isAsciiDigit (data.getD i 0)) = true := by
        rw [hid, decide_eq_true hilen, Bool.and_self]
      rw [if_pos hcond]
      exact ih (i+1) j (by omega) hlt (fun k hk1 hk2 => hds k (by omega) hk2) hstop

/-- Byte test of the number terminator accepted by skip_numeric. -/
def isNumTerminator (b : Nat) : Bool :=
  isAsciiWhitespace b || b == 0x2C || b == 0x7D

theorem terminator_not_digit {b : Nat}
    (h : isNumTerminator b = true) : isAsciiDigit b = false := by
  simp only [isNumTerminator, isAsciiWhitespace, Bool.or_eq_true, beq_iff_eq] at h
  have hb : b = 32 ∨ b = 9 ∨ b = 10 ∨ b = 12 ∨ b = 13 ∨ b = 44 ∨ b = 125 := by tauto
  rcases hb with rfl | rfl | rfl | rfl | rfl | rfl | rfl <;> decide

theorem skip_numeric_ok {data : List Nat} {i j : Nat} (hi : i ≤ data.length)
    (h : skip_numeric i data = .ok j) :
    i ≤ j ∧ j < data.length ∧
      (∀ k, i ≤ k → k < j → isAsciiDigit (data.getD k 0) = true) ∧
      isNumTerminator (data.getD j 0) = true := by
  unfold skip_numeric at h
  split at h
  · exact absurd h (by simp)
  · next hne =>
    split at h
    · next hterm =>
      cases h
      exact ⟨skipNumIdx_le data _ i,
        Nat.lt_of_le_of_ne (skipNumIdx_le_length data _ i hi) hne,
        fun k hk1 hk2 => skipNumIdx_digit_range data _ i k hk1 hk2, hterm⟩
    · exact absurd h (by simp)

theorem skip_numeric_take {data : List Nat} {m i j : Nat} (hm : m ≤ data.length)
    (hi : i ≤ m) (h : skip_numeric i data = .ok j) :
    (j < m → skip_numeric i (data.take m) = .ok j) ∧
      (m ≤ j → skip_numeric i (data.take m) = .error .Incomplete) := by
  have hlen : (data.take m).length = m := length_take_of_le hm
  obtain ⟨hij, hjlen, hds, hterm⟩ := skip_numeric_ok (by omega) h
  constructor
  · intro hjm
    have hT : skipNumIdx (data.take m) ((data.take m).length + 1) i = j := by
      apply skipNumIdx_of_spec
      · omega
      · exact hij
      · intro k hk1 hk2
        rw [getD_take_of_lt (by omega)]
        exact hds k hk1 hk2
      · right
        refine ⟨by omega, ?_⟩
        rw [getD_take_of_lt (by omega)]
        exact terminator_not_digit hterm
    unfold skip_numeric
    rw [hT, if_neg (by omega)]
    have : (isAsciiWhitespace ((data.take m).getD j 0) || (data.take m).getD j 0 == 0x2C ||
        (data.take m).getD j 0 == 0x7D) = true := by
      rw [getD_take_of_lt (by omega)]
      exact hterm
    rw [if_pos this]
  · intro hmj
    have hT : skipNumIdx (data.take m) ((data.take m).length + 1) i = m := by
      apply skipNumIdx_of_spec
      · omega
      · exact hi
      · intro k hk1 hk2
        rw [getD_take_of_lt (by omega)]
        exact hds k hk1 (by omega)
      · left; omega
    unfold skip_numeric
    rw [hT, if_pos (by omega)]

theorem skipLiteralAux_ok {data : List Nat} {err : JsonParseFailure} :
    ∀ {tgt : List Nat} {i j : Nat}, skipLiteralAux data err i tgt = .ok j →
      j = i + tgt.length ∧
        (∀ k, i ≤ k → k < j → k < data.length ∧ data.getD k 0 = tgt.getD (k - i) 0) := by
  intro tgt
  induction tgt with
  | nil =>
    intro i j h
    simp only [skipLiteralAux] at h
    cases h
    exact ⟨by simp, fun k hk1 hk2 => absurd hk2 (by omega)⟩
  | cons t ts ih =>
    intro i j h
    simp only [skipLiteralAux] at h
    split at h
    · next hlt =>
      split at h
      · next heq =>
        obtain ⟨h1, h3⟩ := ih h
        refine ⟨by simp only [List.length_cons]; omega, ?_⟩
        intro k hk1 hk2
        rcases Nat.eq_or_lt_of_le hk1 with hk | hk
        · subst hk
          refine ⟨hlt, ?_⟩
          rw [Nat.sub_self]
          exact beq_iff_eq.mp heq
        · obtain ⟨hklen, hkeq⟩ := h3 k hk hk2
          refine ⟨hklen, ?_⟩
          rw [hkeq]
          have hsub : k - i = (k - (i+1)) + 1 := by omega
          rw [hsub]
          rfl
      · exact absurd h (by simp)
    · exact absurd h (by simp)

theorem skipLiteralAux_take {data : List Nat} {err : JsonParseFailure} {m : Nat}
    (hm : m ≤ data.length) :
    ∀ {tgt : List Nat} {i j : Nat}, i ≤ m → skipLiteralAux data err i tgt = .ok j →
      (j ≤ m → skipLiteralAux (data.take m) err i tgt = .ok j) ∧
        (m < j → skipLiteralAux (data.take m) err i tgt = .error .Incomplete) := by
  have hlen : (data.take m).length = m := length_take_of_le hm
  intro tgt
  induction tgt with
  | nil =>
    intro i j hi h
    simp only [skipLiteralAux] at h
    cases h
    exact ⟨fun _ => rfl, fun hc => by omega⟩
  | cons t ts ih =>
    intro i j hi h
    simp only [skipLiteralAux] at h
    split at h
    · next hlt =>
      split at h
      · next heq =>
        have hadv := (skipLiteralAux_ok h).1
        rcases Nat.lt_or_ge i m with him | him
        · have hgT : (data.take m).getD i 0 = data.getD i 0 := getD_take_of_lt him
          obtain ⟨ihok, ihfail⟩ := ih (by omega) h
          constructor
          · intro hjm
            simp only [skipLiteralAux]
            rw [if_pos (by omega), hgT, if_pos heq]
            exact ihok hjm
          · intro hmj
            simp only [skipLiteralAux]
            rw [if_pos (by omega), hgT, if_pos heq]
            exact ihfail hmj
        · constructor
          · intro hjm
            omega
          · intro hmj
            simp only [skipLiteralAux]
            rw [if_neg (by omega)]
      · exact absurd h (by simp)
    · exact absurd h (by simp)

theorem skip_literal_ok {data : List Nat} {err : JsonParseFailure} {tgt : List Nat}
    {i j : Nat} (h : skip_literal i data tgt err = .ok j) :
    j = i + tgt.length ∧
      (∀ k, i ≤ k → k < j → k < data.length ∧ data.getD k 0 = tgt.getD (k - i) 0) :=
  skipLiteralAux_ok h

theorem skip_literal_take {data : List Nat} {err : JsonParseFailure} {m : Nat}
    {tgt : List Nat} {i j : Nat} (hm : m ≤ data.length) (hi : i ≤ m)
    (h : skip_literal i data tgt err = .ok j) :
    (j ≤ m → skip_literal i (data.take m) tgt err = .ok j) ∧
      (m < j → skip_literal i (data.take m) tgt err = .error .Incomplete) :=
  skipLiteralAux_take hm hi h

theorem unescapeLoop_ok {data : List Nat} :
    ∀ f {i flag sb j1 s sb1}, unescapeLoop data f i flag sb = .ok (j1, s, sb1) →
      i < j1 ∧ j1 ≤ data.length := by
  intro f
  induction f with
  | zero => intro i flag sb j1 s sb1 h; exact absurd h (by simp [unescapeLoop])
  | succ f ih =>
    intro i flag sb j1 s sb1 h
    simp only [unescapeLoop] at h
    split at h
    · next hlen =>
      split at h
      · exact absurd h (by simp)
      · split at h
        · split at h
          · split at h
            · exact absurd h (by simp)
            · obtain ⟨h1, h2⟩ := ih h
              omega
          · exact absurd h (by simp)
        · split at h
          · obtain ⟨h1, h2⟩ := ih h
            omega
          · split at h
            · cases h
              exact ⟨Nat.lt_succ_self i, hlen⟩
            · split at h
              · exact absurd h (by simp)
              · obtain ⟨h1, h2⟩ := ih h
                omega
    · exact absurd h (by simp)

theorem unescapeLoop_fuel {data : List Nat} :
    ∀ f g i flag sb, data.length - i ≤ f → data.length - i ≤ g →
      unescapeLoop data f i flag sb = unescapeLoop data g i flag sb := by
  intro f
  induction f with
  | zero =>
    intro g i flag sb hf _
    cases g with
    | zero => rfl
    | succ g =>
      simp only [unescapeLoop]
      rw [if_neg (by omega : ¬ i < data.length)]
  | succ f ih =>
    intro g i flag sb hf hg
    by_cases hi : i < data.length
    · cases g with
      | zero => omega
      | succ g =>
        simp only [unescapeLoop]
        rw [if_pos hi, if_pos hi]
        split
        · rfl
        · split
          · split
            · split
              · rfl
              · exact ih g (i+1) false _ (by omega) (by omega)
            · rfl
          · split
            · exact ih g (i+1) true sb (by omega) (by omega)
            · split
              · rfl
              · split
                · rfl
                · exact ih g (i+1) false _ (by omega) (by omega)
    · cases g with
      | zero =>
        simp only [unescapeLoop]
        rw [if_neg hi]
      | succ g =>
        simp only [unescapeLoop]
        rw [if_neg hi, if_neg hi]

theorem unescapeLoop_take {data : List Nat} {m : Nat} (hm : m ≤ data.length) :
    ∀ f {i flag sb j1 s sb1}, unescapeLoop data f i flag sb = .ok (j1, s, sb1) → i ≤ m →
      (j1 ≤ m → unescapeLoop (data.take m) f i flag sb = .ok (j1, s, sb1)) ∧
        (m < j1 → unescapeLoop (data.take m) f i flag sb = .error .Incomplete) := by
  have hlen : (data.take m).length = m := length_take_of_le hm
  intro f
  induction f with
  | zero => intro i flag sb j1 s sb1 h; exact absurd h (by simp [unescapeLoop])
  | succ f ih =>
    intro i flag sb j1 s sb1 h him
    have hadv := unescapeLoop_ok (f+1) h
    rcases Nat.eq_or_lt_of_le him with heqm | hltm
    · subst heqm
      have hT : unescapeLoop (data.take i) (f+1) i flag sb = .error .Incomplete := by
        simp only [unescapeLoop]
        rw [if_neg (by omega : ¬ i < (data.take i).length)]
      exact ⟨fun hj => by omega, fun _ => hT⟩
    · have hg : (data.take m).getD i 0 = data.getD i 0 := getD_take_of_lt hltm
      have hiT : i < (data.take m).length := by omega
      simp only [unescapeLoop] at h
      rw [if_pos (by omega : i < data.length)] at h
      split at h
      · exact absurd h (by simp)
      · next h80 =>
        simp only [unescapeLoop]
        rw [if_pos hiT, hg, if_neg h80]
        split at h
        · next hflag =>
          rw [if_pos hflag]
          split at h
          · next u hu =>
            split at h
            · exact absurd h (by simp)
            · next sb2 hw =>
              exact ih h (by omega)
          · exact absurd h (by simp)
        · next hflag =>
          rw [if_neg hflag]
          split at h
          · next hbs =>
            rw [if_pos hbs]
            exact ih h (by omega)
          · next hbs =>
            rw [if_neg hbs]
            split at h
            · next hq =>
              rw [if_pos hq]
              cases h
              exact ⟨fun _ => rfl, fun hc => by omega⟩
            · next hq =>
              rw [if_neg hq]
              split at h
              · exact absurd h (by simp)
              · next sb2 hw =>
                exact ih h (by omega)

theorem unescape_json_string_ok {data : List Nat} {i : Nat} {sb : StringBuffer}
    {j1 : Nat} {s : List Nat} {sb1 : StringBuffer}
    (h : unescape_json_string i data sb = .ok (j1, s, sb1)) :
    i + 2 ≤ j1 ∧ j1 ≤ data.length := by
  unfold unescape_json_string at h
  split at h
  · obtain ⟨h1, h2⟩ := unescapeLoop_ok _ h
    exact ⟨by omega, h2⟩
  · exact absurd h (by simp)

theorem unescape_json_string_take {data : List Nat} {m i : Nat} {sb : StringBuffer}
    {j1 : Nat} {s : List Nat} {sb1 : StringBuffer}
    (hm : m ≤ data.length) (him : i < m)
    (h : unescape_json_string i data sb = .ok (j1, s, sb1)) :
    (j1 ≤ m → unescape_json_string i (data.take m) sb = .ok (j1, s, sb1)) ∧
      (m < j1 → unescape_json_string i (data.take m) sb = .error .Incomplete) := by
  have hlen : (data.take m).length = m := length_take_of_le hm
  unfold unescape_json_string at h ⊢
  rw [getD_take_of_lt him]
  split at h
  · next hq =>
    rw [if_pos hq]
    have hfuel := @unescapeLoop_fuel (data.take m) ((data.take m).length + 1)
      (data.length + 1) (i+1) false sb (by omega) (by omega)
    rw [hfuel]
    exact unescapeLoop_take hm (data.length + 1) h (by omega)
  · exact absurd h (by simp)

theorem sliceBytes_take {data : List Nat} {m a b : Nat} (hb : b ≤ m) :
    sliceBytes (data.take m) a b = sliceBytes data a b := by
  unfold sliceBytes
  rw [List.take_take, Nat.min_eq_left hb]

set_option maxHeartbeats 3200000 in
theorem parseLoop_take {data : List Nat} {m : Nat} (hm : m < data.length) :
    ∀ f {i nc fb sb n cnt fb1 sb1},
      parseLoop data f i nc fb sb = .ok (n, cnt, fb1, sb1) →
      n = data.length → i ≤ m →
      ∀ g, m - i < g →
        parseLoop (data.take m) g i nc fb sb = .error .Incomplete := by
  have hmle : m ≤ data.length := Nat.le_of_lt hm
  have hlen : (data.take m).length = m := length_take_of_le hmle
  intro f
  induction f with
  | zero =>
    intro i nc fb sb n cnt fb1 sb1 h
    rw [show parseLoop data 0 i nc fb sb = .error .Incomplete from rfl] at h
    exact absurd h (by simp)
  | succ f ih =>
    intro i nc fb sb n cnt fb1 sb1 h hn him g hg
    cases g with
    | zero => omega
    | succ g =>
      simp only [parseLoop] at h
      split at h
      · next hilen =>
        rcases Nat.eq_or_lt_of_le him with heqm | hltm
        · simp only [parseLoop]
          rw [if_neg (by omega : ¬ i < (data.take m).length)]
        · simp only [parseLoop]
          rw [if_pos (by omega : i < (data.take m).length)]
          split at h
          · exact absurd h (by simp)
          · next j hws =>
            obtain ⟨hij, hjlen⟩ := skip_whitespace_ok (by omega) hws
            obtain ⟨hwsT1, hwsT2⟩ := skip_whitespace_take hmle (by omega) hws
            rcases Nat.lt_or_ge j m with hjm | hjm
            · simp only [hwsT1 hjm, getD_take_of_lt hjm]
              split at h
              · next hq =>
                rw [if_pos hq]
                cases h
                omega
              · next hq =>
                rw [if_neg hq]
                split at h
                · next hnc =>
                  rw [if_pos hnc]
                  split at h
                  · next hcm =>
                    rw [if_pos hcm]
                    exact ih h hn (by omega) g (by omega)
                  · exact absurd h (by simp)
                · next hnc =>
                  rw [if_neg hnc]
                  split at h
                  · exact absurd h (by simp)
                  · next j1 sKey sb1a hkey =>
                    obtain ⟨hj1a, hj1len⟩ := unescape_json_string_ok hkey
                    obtain ⟨hkT1, hkT2⟩ := unescape_json_string_take hmle hjm hkey
                    rcases Nat.lt_or_ge m j1 with hj1m | hj1m
                    · simp only [hkT2 hj1m]
                    · simp only [hkT1 (by omega)]
                      split at h
                      · exact absurd h (by simp)
                      · next j2 hws2 =>
                        obtain ⟨hj12, hj2len⟩ := skip_whitespace_ok (by omega) hws2
                        obtain ⟨hws2T1, hws2T2⟩ := skip_whitespace_take hmle (by omega) hws2
                        rcases Nat.lt_or_ge j2 m with hj2m | hj2m
                        · simp only [hws2T1 hj2m, getD_take_of_lt hj2m]
                          split at h
                          · next hcol =>
                            rw [if_pos hcol]
                            split at h
                            · exact absurd h (by simp)
                            · next j3 hws3 =>
                              obtain ⟨hj23, hj3len⟩ := skip_whitespace_ok (by omega) hws3
                              obtain ⟨hws3T1, hws3T2⟩ := skip_whitespace_take hmle (by omega) hws3
                              rcases Nat.lt_or_ge j3 m with hj3m | hj3m
                              · simp only [hws3T1 hj3m, getD_take_of_lt hj3m]
                                split at h
                                · next hv =>
                                  rw [if_pos hv]
                                  split at h
                                  · exact absurd h (by simp)
                                  · next j4 sval sb2 hval =>
                                    obtain ⟨hj34, hj4len⟩ := unescape_json_string_ok hval
                                    obtain ⟨hvT1, hvT2⟩ := unescape_json_string_take hmle hj3m hval
                                    rcases Nat.lt_or_ge m j4 with hj4m | hj4m
                                    · simp only [hvT2 hj4m]
                                    · simp only [hvT1 (by omega)]
                                      split at h
                                      · exact absurd h (by simp)
                                      · next fb2 hw =>
                                        exact ih h hn (by omega) g (by omega)
                                · next hv =>
                                  rw [if_neg hv]
                                  split at h
                                  · next hlit =>
                                    rw [if_pos hlit]
                                    split at h
                                    · exact absurd h (by simp)
                                    · next j4 hsl =>
                                      obtain ⟨hj4eq, hsl2⟩ := skip_literal_ok hsl
                                      obtain ⟨hslT1, hslT2⟩ :=
                                        skip_literal_take hmle (by omega) hsl
                                      rcases Nat.lt_or_ge m j4 with hj4m | hj4m
                                      · simp only [hslT2 hj4m]
                                      · simp only [hslT1 (by omega)]
                                        split at h
                                        · exact absurd h (by simp)
                                        · next fb2 hw =>
                                          exact ih h hn (by omega) g (by omega)
                                  · next hlit =>
                                    rw [if_neg hlit]
                                    split at h
                                    · next hbool =>
                                      rw [if_pos hbool]
                                      split at h
                                      · exact absurd h (by simp)
                                      · next j4 hsl =>
                                        obtain ⟨hj4eq, hsl2⟩ := skip_literal_ok hsl
                                        obtain ⟨hslT1, hslT2⟩ :=
                                          skip_literal_take hmle (by omega) hsl
                                        rcases Nat.lt_or_ge m j4 with hj4m | hj4m
                                        · simp only [hslT2 hj4m]
                                        · simp only [hslT1 (by omega)]
                                          split at h
                                          · exact absurd h (by simp)
                                          · next fb2 hw =>
                                            exact ih h hn (by omega) g (by omega)
                                    · next hbool =>
                                      rw [if_neg hbool]
                                      split at h
                                      · next hminus =>
                                        rw [if_pos hminus]
                                        split at h
                                        · exact absurd h (by simp)
                                        · next j5 hnum =>
                                          obtain ⟨hj35, hj5len, hds, hterm⟩ :=
                                            skip_numeric_ok (by omega) hnum
                                          obtain ⟨hnT1, hnT2⟩ :=
                                            skip_numeric_take hmle (by omega) hnum
                                          rcases Nat.lt_or_ge j5 m with hj5m | hj5m
                                          · simp only [hnT1 hj5m]
                                            split at h
                                            · exact absurd h (by simp)
                                            · next hne1 =>
                                              rw [if_neg hne1, sliceBytes_take (by omega)]
                                              split at h
                                              · exact absurd h (by simp)
                                              · next v hv64 =>
                                                split at h
                                                · exact absurd h (by simp)
                                                · next fb2 hw =>
                                                  exact ih h hn (by omega) g (by omega)
                                          · simp only [hnT2 hj5m]
                                      · next hminus =>
                                        rw [if_neg hminus]
                                        split at h
                                        · next hdig =>
                                          rw [if_pos hdig]
                                          split at h
                                          · exact absurd h (by simp)
                                          · next j5 hnum =>
                                            obtain ⟨hj35, hj5len, hds, hterm⟩ :=
                                              skip_numeric_ok (by omega) hnum
                                            obtain ⟨hnT1, hnT2⟩ :=
                                              skip_numeric_take hmle (by omega) hnum
                                            rcases Nat.lt_or_ge j5 m with hj5m | hj5m
                                            · simp only [hnT1 hj5m]
                                              rw [sliceBytes_take (by omega)]
                                              split at h
                                              · exact absurd h (by simp)
                                              · next v hv64 =>
                                                split at h
                                                · exact absurd h (by simp)
                                                · next fb2 hw =>
                                                  exact ih h hn (by omega) g (by omega)
                                            · simp only [hnT2 hj5m]
                                        · next hdig =>
                                          rw [if_neg hdig]
                                          exact absurd h (by simp)
                              · simp only [hws3T2 hj3m]
                          · next hcol =>
                            rw [if_neg hcol]
                            exact absurd h (by simp)
                        · simp only [hws2T2 hj2m]
            · simp only [hwsT2 hjm]
      · exact absurd h (by simp)

theorem getElem?_of_lt {l : List Nat} {i : Nat} (h : i < l.length) :
    l[i]? = some (l.getD i 0) := by
  rw [List.getD_eq_getElem?_getD, List.getElem?_eq_getElem h]
  rfl

theorem sliceChecked_eq {data : List Nat} {a b : Nat} (ha : a ≤ b) (hb : b ≤ data.length) :
    sliceChecked data a b = some (sliceBytes data a b) := by
  unfold sliceChecked
  rw [if_pos ⟨ha, hb⟩]

theorem asciiStrChecked_eq {bs : List Nat} (h : ∀ x ∈ bs, x < 0x80) :
    asciiStrChecked bs = some bs := by
  unfold asciiStrChecked
  rw [if_pos]
  exact List.all_eq_true.mpr (fun x hx => decide_eq_true (h x hx))

theorem digit_lt_128 {b : Nat} (h : isAsciiDigit b = true) : b < 0x80 := by
  simp only [isAsciiDigit, Bool.and_eq_true, decide_eq_true_eq] at h
  omega

theorem mem_sliceBytes {data : List Nat} {a b x : Nat}
    (hx : x ∈ sliceBytes data a b) : ∃ k, a ≤ k ∧ k < b ∧ x = data.getD k 0 := by
  unfold sliceBytes at hx
  obtain ⟨i, hilen, hi⟩ := List.mem_iff_getElem.mp hx
  have h1 : ((data.take b).drop a).length = (data.take b).length - a := List.length_drop _ _
  have hmin : (data.take b).length = min b data.length := by simp
  have h2 : (data.take b).length ≤ b := by omega
  have h3 : (data.take b).length ≤ data.length := by omega
  have hq : ((data.take b).drop a)[i]? = some x := by
    rw [List.getElem?_eq_getElem hilen, hi]
  rw [List.getElem?_drop] at hq
  rw [List.getElem?_take_of_lt (by omega)] at hq
  rw [getElem?_of_lt (by omega)] at hq
  cases hq
  exact ⟨a + i, by omega, by omega, rfl⟩

theorem unescape_c_eq {data : List Nat} {i : Nat} {sb : StringBuffer}
    (h : i < data.length) :
    unescape_json_string_c i data sb = some (unescape_json_string i data sb) := by
  unfold unescape_json_string_c unescape_json_string
  simp only [getElem?_of_lt h]
  split <;> rfl

set_option maxHeartbeats 6400000 in
theorem parseLoop_c_eq {data : List Nat} :
    ∀ f i nc fb sb, parseLoop_c data f i nc fb sb = some (parseLoop data f i nc fb sb) := by
  intro f
  induction f with
  | zero => intro i nc fb sb; rfl
  | succ f ih =>
    intro i nc fb sb
    by_cases hi : i < data.length
    · simp only [parseLoop_c, parseLoop]
      rw [if_pos hi, if_pos hi]
      split
      · rfl
      · next j hws =>
        have hj := skip_whitespace_ok (Nat.le_of_lt hi) hws
        split
        · next heq =>
          rw [getElem?_of_lt hj.2] at heq
          exact absurd heq (by simp)
        · next cj heq =>
          rw [getElem?_of_lt hj.2] at heq
          cases heq
          by_cases h7 : (data.getD j 0 == 0x7D) = true
          · rw [if_pos h7, if_pos h7]
          · rw [if_neg h7, if_neg h7]
            by_cases hnc : nc = true
            · rw [if_pos hnc, if_pos hnc]
              by_cases hcm : (data.getD j 0 == 0x2C) = true
              · rw [if_pos hcm, if_pos hcm]
                exact ih _ _ _ _
              · rw [if_neg hcm, if_neg hcm]
            · rw [if_neg hnc, if_neg hnc]
              split
              · next heq2 =>
                rw [unescape_c_eq hj.2] at heq2
                exact absurd heq2 (by simp)
              · next r heq2 =>
                rw [unescape_c_eq hj.2] at heq2
                cases heq2
                split
                · rfl
                · next j1 sKey sb1 hkey =>
                  have hu := unescape_json_string_ok hkey
                  split
                  · rfl
                  · next j2 hws2 =>
                    have hj2 := skip_whitespace_ok (by omega) hws2
                    split
                    · next heq3 =>
                      rw [getElem?_of_lt hj2.2] at heq3
                      exact absurd heq3 (by simp)
                    · next cj2 heq3 =>
                      rw [getElem?_of_lt hj2.2] at heq3
                      cases heq3
                      by_cases hcol : (data.getD j2 0 == 0x3A) = true
                      · rw [if_pos hcol, if_pos hcol]
                        split
                        · rfl
                        · next j3 hws3 =>
                          have hj3 := skip_whitespace_ok (by omega) hws3
                          split
                          · next heq4 =>
                            rw [getElem?_of_lt hj3.2] at heq4
                            exact absurd heq4 (by simp)
                          · next c3 heq4 =>
                            rw [getElem?_of_lt hj3.2] at heq4
                            cases heq4
                            by_cases hv : (data.getD j3 0 == 0x22) = true
                            · rw [if_pos hv, if_pos hv]
                              split
                              · next heq5 =>
                                rw [unescape_c_eq hj3.2] at heq5
                                exact absurd heq5 (by simp)
                              · next r2 heq5 =>
                                rw [unescape_c_eq hj3.2] at heq5
                                cases heq5
                                split
                                · rfl
                                · split
                                  · rfl
                                  · exact ih _ _ _ _
                            · rw [if_neg hv, if_neg hv]
                              by_cases hnull : (data.getD j3 0 == 0x6E) = true
                              · rw [if_pos hnull, if_pos hnull]
                                split
                                · rfl
                                · split
                                  · rfl
                                  · exact ih _ _ _ _
                              · rw [if_neg hnull, if_neg hnull]
                                by_cases hbool :
                                    (data.getD j3 0 == 0x74 || data.getD j3 0 == 0x66) = true
                                · rw [if_pos hbool, if_pos hbool]
                                  split
                                  · rfl
                                  · split
                                    · rfl
                                    · exact ih _ _ _ _
                                · rw [if_neg hbool, if_neg hbool]
                                  by_cases hminus : (data.getD j3 0 == 0x2D) = true
                                  · rw [if_pos hminus, if_pos hminus]
                                    split
                                    · rfl
                                    · next j5 hnum =>
                                      obtain ⟨hj35, hj5len, hds, _⟩ :=
                                        skip_numeric_ok (by omega) hnum
                                      have hacp : ∀ x ∈ sliceBytes data j3 j5, x < 0x80 := by
                                        intro x hx
                                        obtain ⟨k, hk1, hk2, hk3⟩ := mem_sliceBytes hx
                                        subst hk3
                                        rcases Nat.eq_or_lt_of_le hk1 with hk | hk
                                        · rw [← hk]
                                          have := beq_iff_eq.mp hminus
                                          omega
                                        · exact digit_lt_128 (hds k (by omega) hk2)
                                      by_cases hone : j5 - j3 = 1
                                      · rw [if_pos hone, if_pos hone]
                                      · rw [if_neg hone, if_neg hone]
                                        split
                                        · next heq6 =>
                                          rw [sliceChecked_eq (by omega) (by omega)] at heq6
                                          exact absurd heq6 (by simp)
                                        · next raw heq6 =>
                                          rw [sliceChecked_eq (by omega) (by omega)] at heq6
                                          cases heq6
                                          split
                                          · next heq7 =>
                                            rw [asciiStrChecked_eq hacp] at heq7
                                            exact absurd heq7 (by simp)
                                          · next numstr heq7 =>
                                            rw [asciiStrChecked_eq hacp] at heq7
                                            cases heq7
                                            split
                                            · rfl
                                            · split
                                              · rfl
                                              · exact ih _ _ _ _
                                  · rw [if_neg hminus, if_neg hminus]
                                    by_cases hdig :
                                        (0x30 ≤ data.getD j3 0 && data.getD j3 0 < 0x39) = true
                                    · rw [if_pos hdig, if_pos hdig]
                                      split
                                      · rfl
                                      · next j5 hnum =>
                                        obtain ⟨hj35, hj5len, hds, _⟩ :=
                                          skip_numeric_ok (by omega) hnum
                                        have hacp : ∀ x ∈ sliceBytes data j3 j5, x < 0x80 := by
                                          intro x hx
                                          obtain ⟨k, hk1, hk2, hk3⟩ := mem_sliceBytes hx
                                          subst hk3
                                          rcases Nat.eq_or_lt_of_le hk1 with hk | hk
                                          · rw [← hk]
                                            have hand := (Bool.and_eq_true _ _).mp hdig
                                            have h1 := of_decide_eq_true hand.1
                                            have h2 := of_decide_eq_true hand.2
                                            omega
                                          · exact digit_lt_128 (hds k (by omega) hk2)
                                        split
                                        · next heq6 =>
                                          rw [sliceChecked_eq (by omega) (by omega)] at heq6
                                          exact absurd heq6 (by simp)
                                        · next raw heq6 =>
                                          rw [sliceChecked_eq (by omega) (by omega)] at heq6
                                          cases heq6
                                          split
                                          · next heq7 =>
                                            rw [asciiStrChecked_eq hacp] at heq7
                                            exact absurd heq7 (by simp)
                                          · next numstr heq7 =>
                                            rw [asciiStrChecked_eq hacp] at heq7
                                            cases heq7
                                            split
                                            · rfl
                                            · split
                                              · rfl
                                              · exact ih _ _ _ _
                                    · rw [if_neg hdig, if_neg hdig]
                      · rw [if_neg hcol, if_neg hcol]
    · simp only [parseLoop_c, parseLoop]
      rw [if_neg hi, if_neg hi]

theorem parse_json_object_c_eq (data : List Nat) (fb : ParseBuffer) (sb : StringBuffer) :
    parse_json_object_c data fb sb = some (parse_json_object data fb sb) := by
  unfold parse_json_object_c parse_json_object
  split
  · rfl
  · next i hws =>
    have hj := skip_whitespace_ok (Nat.zero_le _) hws
    split
    · next heq =>
      rw [getElem?_of_lt hj.2] at heq
      exact absurd heq (by simp)
    · next c heq =>
      rw [getElem?_of_lt hj.2] at heq
      cases heq
      split
      · exact parseLoop_c_eq _ _ _ _ _
      · rfl

theorem inf_write_ne_error {p : Nat} {vec : List JsonField} {t : JsonField}
    {e : JsonParseFailure} : (ParseBuffer.Infinite p vec).write_thing t ≠ .error e := by
  simp only [ParseBuffer.write_thing]
  split <;> simp

theorem inf_write_shape {p : Nat} {vec : List JsonField} {t : JsonField} {fb2 : ParseBuffer}
    (h : (ParseBuffer.Infinite p vec).write_thing t = .ok fb2) :
    ∃ vec1, fb2 = .Infinite (p+1) vec1 := by
  simp only [ParseBuffer.write_thing] at h
  split at h
  · exact ⟨_, (by cases h; rfl)⟩
  · exact ⟨_, (by cases h; rfl)⟩

theorem fin_write_eq_full {p : Nat} {slots : List JsonField} {t : JsonField}
    (hp : p = slots.length) :
    (ParseBuffer.Finite p slots).write_thing t = .error .FieldBufferTooSmall := by
  simp only [ParseBuffer.write_thing]
  rw [if_pos hp]

theorem fin_write_eq_room {p : Nat} {slots : List JsonField} {t : JsonField}
    (hp : p < slots.length) :
    (ParseBuffer.Finite p slots).write_thing t = .ok (.Finite (p+1) (slots.set p t)) := by
  simp only [ParseBuffer.write_thing]
  rw [if_neg (by omega)]

theorem write_thing_consume {fb : ParseBuffer} {t : JsonField} {fb2 : ParseBuffer}
    (h : fb.write_thing t = .ok fb2) : fb2.consume = fb.consume + 1 := by
  cases fb with
  | Finite p slots =>
    simp only [ParseBuffer.write_thing] at h
    split at h
    · exact absurd h (by simp)
    · cases h; rfl
  | Infinite p vec =>
    simp only [ParseBuffer.write_thing] at h
    split at h
    · cases h; rfl
    · cases h; rfl

theorem parseLoop_consume_mono {data : List Nat} :
    ∀ f {i nc fb sb n cnt fb1 sb1},
      parseLoop data f i nc fb sb = .ok (n, cnt, fb1, sb1) → fb.consume ≤ cnt := by
  intro f
  induction f with
  | zero =>
    intro i nc fb sb n cnt fb1 sb1 h
    rw [show parseLoop data 0 i nc fb sb = .error .Incomplete from rfl] at h
    exact absurd h (by simp)
  | succ f ih =>
    intro i nc fb sb n cnt fb1 sb1 h
    simp only [parseLoop] at h
    split at h
    · split at h
      · exact absurd h (by simp)
      · next j hws =>
        split at h
        · cases h
          exact Nat.le_refl _
        · split at h
          · split at h
            · exact ih h
            · exact absurd h (by simp)
          · split at h
            · exact absurd h (by simp)
            · next j1 sKey sb1a hkey =>
              split at h
              · exact absurd h (by simp)
              · next j2 hws2 =>
                split at h
                · split at h
                  · exact absurd h (by simp)
                  · next j3 hws3 =>
                    split at h
                    · split at h
                      · exact absurd h (by simp)
                      · next j4 sval sb2 hval =>
                        split at h
                        · exact absurd h (by simp)
                        · next fb2 hw =>
                          have h1 := write_thing_consume hw
                          have := ih h
                          omega
                    · split at h
                      · split at h
                        · exact absurd h (by simp)
                        · next j4 hsl =>
                          split at h
                          · exact absurd h (by simp)
                          · next fb2 hw =>
                            have h1 := write_thing_consume hw
                            have := ih h
                            omega
                      · split at h
                        · split at h
                          · exact absurd h (by simp)
                          · next j4 hsl =>
                            split at h
                            · exact absurd h (by simp)
                            · next fb2 hw =>
                              have h1 := write_thing_consume hw
                              have := ih h
                              omega
                        · split at h
                          · split at h
                            · exact absurd h (by simp)
                            · next j5 hnum =>
                              split at h
                              · exact absurd h (by simp)
                              · split at h
                                · exact absurd h (by simp)
                                · next v hv64 =>
                                  split at h
                                  · exact absurd h (by simp)
                                  · next fb2 hw =>
                                    have h1 := write_thing_consume hw
                                    have := ih h
                                    omega
                          · split at h
                            · split at h
                              · exact absurd h (by simp)
                              · next j5 hnum =>
                                split at h
                                · exact absurd h (by simp)
                                · next v hv64 =>
                                  split at h
                                  · exact absurd h (by simp)
                                  · next fb2 hw =>
                                    have h1 := write_thing_consume hw
                                    have := ih h
                                    omega
                            · exact absurd h (by simp)
                · exact absurd h (by simp)
    · exact absurd h (by simp)

set_option maxHeartbeats 6400000 in
theorem parseLoop_fin_small {data : List Nat} :
    ∀ f {i nc p vec sb n cnt fbI sbO},
      parseLoop data f i nc (.Infinite p vec) sb = .ok (n, cnt, fbI, sbO) →
      ∀ {slots : List JsonField}, p ≤ slots.length → slots.length < cnt →
        parseLoop data f i nc (.Finite p slots) sb = .error .FieldBufferTooSmall := by
  intro f
  induction f with
  | zero =>
    intro i nc p vec sb n cnt fbI sbO h
    rw [show parseLoop data 0 i nc (ParseBuffer.Infinite p vec) sb = .error .Incomplete from rfl]
      at h
    exact absurd h (by simp)
  | succ f ih =>
    intro i nc p vec sb n cnt fbI sbO h slots hp hlt
    simp only [parseLoop] at h ⊢
    split at h
    · next hi =>
      rw [if_pos hi]
      split at h
      · exact absurd h (by simp)
      · next j hws =>
        split at h
        · next h7 =>
          rw [if_pos h7]
          cases h
          have hc : (ParseBuffer.Infinite p vec).consume = p := rfl
          exact ((by omega : False)).elim
        · next h7 =>
          rw [if_neg h7]
          split at h
          · next hnc =>
            rw [if_pos hnc]
            split at h
            · next hcm =>
              rw [if_pos hcm]
              exact ih h hp hlt
            · exact absurd h (by simp)
          · next hnc =>
            rw [if_neg hnc]
            split at h
            · exact absurd h (by simp)
            · next j1 sKey sb1a hkey =>
              split at h
              · exact absurd h (by simp)
              · next j2 hws2 =>
                split at h
                · next hcol =>
                  rw [if_pos hcol]
                  split at h
                  · exact absurd h (by simp)
                  · next j3 hws3 =>
                    split at h
                    · next hv =>
                      rw [if_pos hv]
                      split at h
                      · exact absurd h (by simp)
                      · next j4 sval sb2 hval =>
                        split at h
                        · exact absurd h (by simp)
                        · next fb2 hw =>
                          obtain ⟨vec1, rfl⟩ := inf_write_shape hw
                          rcases Nat.eq_or_lt_of_le hp with hpe | hpl
                          · rw [fin_write_eq_full hpe]
                          · rw [fin_write_eq_room hpl]
                            exact ih h (by rw [List.length_set]; omega)
                              (by rw [List.length_set]; exact hlt)
                    · next hv =>
                      rw [if_neg hv]
                      split at h
                      · next hnull =>
                        rw [if_pos hnull]
                        split at h
                        · exact absurd h (by simp)
                        · next j4 hsl =>
                          split at h
                          · exact absurd h (by simp)
                          · next fb2 hw =>
                            obtain ⟨vec1, rfl⟩ := inf_write_shape hw
                            rcases Nat.eq_or_lt_of_le hp with hpe | hpl
                            · rw [fin_write_eq_full hpe]
                            · rw [fin_write_eq_room hpl]
                              exact ih h (by rw [List.length_set]; omega)
                                (by rw [List.length_set]; exact hlt)
                      · next hnull =>
                        rw [if_neg hnull]
                        split at h
                        · next hbool =>
                          rw [if_pos hbool]
                          split at h
                          · exact absurd h (by simp)
                          · next j4 hsl =>
                            split at h
                            · exact absurd h (by simp)
                            · next fb2 hw =>
                              obtain ⟨vec1, rfl⟩ := inf_write_shape hw
                              rcases Nat.eq_or_lt_of_le hp with hpe | hpl
                              · rw [fin_write_eq_full hpe]
                              · rw [fin_write_eq_room hpl]
                                exact ih h (by rw [List.length_set]; omega)
                                  (by rw [List.length_set]; exact hlt)
                        · next hbool =>
                          rw [if_neg hbool]
                          split at h
                          · next hminus =>
                            rw [if_pos hminus]
                            split at h
                            · exact absurd h (by simp)
                            · next j5 hnum =>
                              split at h
                              · exact absurd h (by simp)
                              · next hone =>
                                rw [if_neg hone]
                                split at h
                                · exact absurd h (by simp)
                                · next v hv64 =>
                                  split at h
                                  · exact absurd h (by simp)
                                  · next fb2 hw =>
                                    obtain ⟨vec1, rfl⟩ := inf_write_shape hw
                                    rcases Nat.eq_or_lt_of_le hp with hpe | hpl
                                    · rw [fin_write_eq_full hpe]
                                    · rw [fin_write_eq_room hpl]
                                      exact ih h (by rw [List.length_set]; omega)
                                        (by rw [List.length_set]; exact hlt)
                          · next hminus =>
                            rw [if_neg hminus]
                            split at h
                            · next hdig =>
                              rw [if_pos hdig]
                              split at h
                              · exact absurd h (by simp)
                              · next j5 hnum =>
                                split at h
                                · exact absurd h (by simp)
                                · next v hv64 =>
                                  split at h
                                  · exact absurd h (by simp)
                                  · next fb2 hw =>
                                    obtain ⟨vec1, rfl⟩ := inf_write_shape hw
                                    rcases Nat.eq_or_lt_of_le hp with hpe | hpl
                                    · rw [fin_write_eq_full hpe]
                                    · rw [fin_write_eq_room hpl]
                                      exact ih h (by rw [List.length_set]; omega)
                                        (by rw [List.length_set]; exact hlt)
                            · next hdig =>
                              rw [if_neg hdig]
                              exact absurd h (by simp)
                · next hcol =>
                  rw [if_neg hcol]
                  exact absurd h (by simp)
    · exact absurd h (by simp)

set_option maxHeartbeats 6400000 in
theorem parseLoop_fin_fits {data : List Nat} :
    ∀ f {i nc p vec sb n cnt fbI sbO},
      parseLoop data f i nc (.Infinite p vec) sb = .ok (n, cnt, fbI, sbO) →
      ∀ {slots : List JsonField}, p ≤ slots.length → cnt ≤ slots.length →
        dropBuf (parseLoop data f i nc (.Finite p slots) sb) = .ok (n, cnt, sbO) := by
  intro f
  induction f with
  | zero =>
    intro i nc p vec sb n cnt fbI sbO h
    rw [show parseLoop data 0 i nc (ParseBuffer.Infinite p vec) sb = .error .Incomplete from rfl]
      at h
    exact absurd h (by simp)
  | succ f ih =>
    intro i nc p vec sb n cnt fbI sbO h slots hp hle
    simp only [parseLoop] at h ⊢
    split at h
    · next hi =>
      rw [if_pos hi]
      split at h
      · exact absurd h (by simp)
      · next j hws =>
        split at h
        · next h7 =>
          rw [if_pos h7]
          cases h
          rfl
        · next h7 =>
          rw [if_neg h7]
          split at h
          · next hnc =>
            rw [if_pos hnc]
            split at h
            · next hcm =>
              rw [if_pos hcm]
              exact ih h hp hle
            · exact absurd h (by simp)
          · next hnc =>
            rw [if_neg hnc]
            split at h
            · exact absurd h (by simp)
            · next j1 sKey sb1a hkey =>
              split at h
              · exact absurd h (by simp)
              · next j2 hws2 =>
                split at h
                · next hcol =>
                  rw [if_pos hcol]
                  split at h
                  · exact absurd h (by simp)
                  · next j3 hws3 =>
                    split at h
                    · next hv =>
                      rw [if_pos hv]
                      split at h
                      · exact absurd h (by simp)
                      · next j4 sval sb2 hval =>
                        split at h
                        · exact absurd h (by simp)
                        · next fb2 hw =>
                          obtain ⟨vec1, rfl⟩ := inf_write_shape hw
                          rcases Nat.eq_or_lt_of_le hp with hpe | hpl
                          · have hcm2 := parseLoop_consume_mono f h
                            have e1 : (ParseBuffer.Infinite (p+1) vec1).consume = p + 1 := rfl
                            exact ((by omega : False)).elim
                          · rw [fin_write_eq_room hpl]
                            exact ih h (by rw [List.length_set]; omega)
                              (by rw [List.length_set]; exact hle)
                    · next hv =>
                      rw [if_neg hv]
                      split at h
                      · next hnull =>
                        rw [if_pos hnull]
                        split at h
                        · exact absurd h (by simp)
                        · next j4 hsl =>
                          split at h
                          · exact absurd h (by simp)
                          · next fb2 hw =>
                            obtain ⟨vec1, rfl⟩ := inf_write_shape hw
                            rcases Nat.eq_or_lt_of_le hp with hpe | hpl
                            · have hcm2 := parseLoop_consume_mono f h
                              have e1 : (ParseBuffer.Infinite (p+1) vec1).consume = p + 1 := rfl
                              exact ((by omega : False)).elim
                            · rw [fin_write_eq_room hpl]
                              exact ih h (by rw [List.length_set]; omega)
                                (by rw [List.length_set]; exact hle)
                      · next hnull =>
                        rw [if_neg hnull]
                        split at h
                        · next hbool =>
                          rw [if_pos hbool]
                          split at h
                          · exact absurd h (by simp)
                          · next j4 hsl =>
                            split at h
                            · exact absurd h (by simp)
                            · next fb2 hw =>
                              obtain ⟨vec1, rfl⟩ := inf_write_shape hw
                              rcases Nat.eq_or_lt_of_le hp with hpe | hpl
                              · have hcm2 := parseLoop_consume_mono f h
                                have e1 : (ParseBuffer.Infinite (p+1) vec1).consume = p + 1 :=
                                  rfl
                                exact ((by omega : False)).elim
                              · rw [fin_write_eq_room hpl]
                                exact ih h (by rw [List.length_set]; omega)
                                  (by rw [List.length_set]; exact hle)
                        · next hbool =>
                          rw [if_neg hbool]
                          split at h
                          · next hminus =>
                            rw [if_pos hminus]
                            split at h
                            · exact absurd h (by simp)
                            · next j5 hnum =>
                              split at h
                              · exact absurd h (by simp)
                              · next hone =>
                                rw [if_neg hone]
                                split at h
                                · exact absurd h (by simp)
                                · next v hv64 =>
                                  split at h
                                  · exact absurd h (by simp)
                                  · next fb2 hw =>
                                    obtain ⟨vec1, rfl⟩ := inf_write_shape hw
                                    rcases Nat.eq_or_lt_of_le hp with hpe | hpl
                                    · have hcm2 := parseLoop_consume_mono f h
                                      have e1 : (ParseBuffer.Infinite (p+1) vec1).consume =
                                          p + 1 := rfl
                                      exact ((by omega : False)).elim
                                    · rw [fin_write_eq_room hpl]
                                      exact ih h (by rw [List.length_set]; omega)
                                        (by rw [List.length_set]; exact hle)
                          · next hminus =>
                            rw [if_neg hminus]
                            split at h
                            · next hdig =>
                              rw [if_pos hdig]
                              split at h
                              · exact absurd h (by simp)
                              · next j5 hnum =>
                                split at h
                                · exact absurd h (by simp)
                                · next v hv64 =>
                                  split at h
                                  · exact absurd h (by simp)
                                  · next fb2 hw =>
                                    obtain ⟨vec1, rfl⟩ := inf_write_shape hw
                                    rcases Nat.eq_or_lt_of_le hp with hpe | hpl
                                    · have hcm2 := parseLoop_consume_mono f h
                                      have e1 : (ParseBuffer.Infinite (p+1) vec1).consume =
                                          p + 1 := rfl
                                      exact ((by omega : False)).elim
                                    · rw [fin_write_eq_room hpl]
                                      exact ih h (by rw [List.length_set]; omega)
                                        (by rw [List.length_set]; exact hle)
                            · next hdig =>
                              rw [if_neg hdig]
                              exact absurd h (by simp)
                · next hcol =>
                  rw [if_neg hcol]
                  exact absurd h (by simp)
    · exact absurd h (by simp)

theorem emit_comp (A B out : List Nat) (c r : Nat) :
    (out ++ A.drop (r - c)) ++ B.drop (r - (c + A.length)) = out ++ (A ++ B).drop (r - c) := by
  rw [List.append_assoc, List.drop_append_eq_append_drop, Nat.sub_sub]

theorem tracked_write_eq (resume : Nat) :
    ∀ (s : List Nat) (c : Nat) (out : List Nat),
      tracked_write resume ⟨c, out⟩ s = ⟨c + s.length, out ++ s.drop (resume - c)⟩ := by
  intro s
  induction s with
  | nil => intro c out; simp [tracked_write]
  | cons b s ih =>
    intro c out
    show tracked_write resume
      (if c < resume then ⟨c + 1, out⟩ else ⟨c + 1, out ++ [b]⟩) s = _
    by_cases hc : c < resume
    · rw [if_pos hc, ih]
      have h1 : resume - c = (resume - (c+1)) + 1 := by omega
      have h2 : (b :: s).drop (resume - c) = s.drop (resume - (c+1)) := by
        rw [h1]
        rfl
      rw [h2]
      have h3 : c + (b :: s).length = c + 1 + s.length := by simp; omega
      rw [h3]
    · rw [if_neg hc, ih]
      have h1 : resume - c = 0 := by omega
      have h2 : resume - (c+1) = 0 := by omega
      rw [h1, h2, List.drop_zero, List.drop_zero, List.append_assoc]
      have h3 : c + (b :: s).length = c + 1 + s.length := by simp; omega
      rw [h3]
      rfl

theorem emits_tracked (r : Nat) (s : List Nat) :
    Emits (fun st => tracked_write r st s) s r := by
  intro c out
  exact tracked_write_eq r s c out

theorem emits_id (r : Nat) : Emits (fun st => st) [] r := by
  intro c out
  simp

theorem Emits.comp {W1 W2 : SerState → SerState} {A B : List Nat} {r : Nat}
    (h1 : Emits W1 A r) (h2 : Emits W2 B r) :
    Emits (fun st => W2 (W1 st)) (A ++ B) r := by
  intro c out
  show W2 (W1 ⟨c, out⟩) = _
  rw [h1, h2, emit_comp]
  rw [List.length_append, Nat.add_assoc]

theorem emits_escape_fold (r : Nat) :
    ∀ bs : List Nat,
      Emits (fun st => bs.foldl (fun acc b =>
        if 0x80 ≤ b then acc
        else match get_required_escape_sequence b with
          | some esc => tracked_write r acc esc
          | none => tracked_write r acc [b]) st) (escapeBody bs) r := by
  intro bs
  induction bs with
  | nil =>
    intro c out
    simp [escapeBody]
  | cons b bs ih =>
    have hstep : Emits (fun st =>
        if 0x80 ≤ b then st
        else match get_required_escape_sequence b with
          | some esc => tracked_write r st esc
          | none => tracked_write r st [b]) (escapeByte b) r := by
      intro c out
      unfold escapeByte
      split
      · simp
      · split
        · next esc heq =>
          exact tracked_write_eq r esc c out
        · next heq =>
          exact tracked_write_eq r [b] c out
    have hcomp := Emits.comp hstep ih
    intro c out
    exact hcomp c out

theorem emits_write_escaped (r : Nat) (s : List Nat) :
    Emits (fun st => write_escaped_json_string r st s) (escapedStringBytes s) r := by
  have h1 := Emits.comp (Emits.comp (emits_tracked r [0x22]) (emits_escape_fold r s))
    (emits_tracked r [0x22])
  have hb : (([0x22] ++ escapeBody s) ++ [0x22]) = escapedStringBytes s := by
    unfold escapedStringBytes
    simp
  rw [hb] at h1
  intro c out
  exact h1 c out

theorem emits_value (r : Nat) (v : JsonValue) :
    Emits (fun st => serializeValue r st v) (valueBytes v) r := by
  cases v with
  | Boolean b =>
    cases b
    · exact emits_tracked r falseLiteral
    · exact emits_tracked r trueLiteral
  | Null => exact emits_tracked r nullLiteral
  | Number n => exact emits_tracked r (intDecimal n)
  | String s => exact emits_write_escaped r s

theorem emits_field_step (r : Nat) (field : JsonField) (flag : Bool) :
    Emits (fun st =>
      serializeValue r (tracked_write r (write_escaped_json_string r
        (if flag then tracked_write r st [0x2C] else st) field.key) [0x3A]) field.value)
      ((if flag then [0x2C] else []) ++ (escapedStringBytes field.key ++ ([0x3A] ++
        valueBytes field.value))) r := by
  have hcomma : Emits (fun st => if flag then tracked_write r st [0x2C] else st)
      (if flag then [0x2C] else []) r := by
    cases flag
    · exact emits_id r
    · exact emits_tracked r [0x2C]
  have h1 := Emits.comp (Emits.comp (Emits.comp hcomma
    (emits_write_escaped r field.key)) (emits_tracked r [0x3A])) (emits_value r field.value)
  have hb : (((if flag then [0x2C] else []) ++ escapedStringBytes field.key) ++ [0x3A]) ++
      valueBytes field.value =
      (if flag then [0x2C] else []) ++ (escapedStringBytes field.key ++ ([0x3A] ++
        valueBytes field.value)) := by
    simp [List.append_assoc]
  rw [hb] at h1
  exact h1

theorem emits_fields_fold (r : Nat) :
    ∀ (fs : List JsonField) (flag : Bool),
      Emits (fun st => (fs.foldl (fun (acc : Bool × SerState) field =>
        (true, serializeValue r (tracked_write r (write_escaped_json_string r
          (if acc.1 then tracked_write r acc.2 [0x2C] else acc.2) field.key) [0x3A])
          field.value)) (flag, st)).2) (fieldsBytes flag fs) r := by
  intro fs
  induction fs with
  | nil =>
    intro flag c out
    simp [fieldsBytes]
  | cons f fs ih =>
    intro flag
    have hcomp := Emits.comp (emits_field_step r f flag) (ih true)
    have hb : ((if flag then [0x2C] else []) ++ (escapedStringBytes f.key ++ ([0x3A] ++
        valueBytes f.value))) ++ fieldsBytes true fs = fieldsBytes flag (f :: fs) := by
      simp only [fieldsBytes]
      simp [List.append_assoc]
    rw [hb] at hcomp
    intro c out
    exact hcomp c out

theorem serialize_json_object_eq (fields : List JsonField) (r : Nat) :
    serialize_json_object fields r =
      ((objectBytes fields).drop r, (objectBytes fields).length - r) := by
  have hobj := Emits.comp (Emits.comp (emits_tracked r [0x7B]) (emits_fields_fold r fields false))
    (emits_tracked r [0x7D])
  have hb : (([0x7B] ++ fieldsBytes false fields) ++ [0x7D]) = objectBytes fields := by
    unfold objectBytes
    simp
  rw [hb] at hobj
  have happ : tracked_write r ((fields.foldl (fun (acc : Bool × SerState) field =>
      (true, serializeValue r (tracked_write r (write_escaped_json_string r
        (if acc.1 then tracked_write r acc.2 [0x2C] else acc.2) field.key) [0x3A])
        field.value)) (false, tracked_write r ⟨0, []⟩ [0x7B])).2) [0x7D] =
      ⟨0 + (objectBytes fields).length, [] ++ (objectBytes fields).drop (r - 0)⟩ :=
    hobj 0 []
  simp only [serialize_json_object]
  rw [happ]
  simp

theorem unescapeLoop_backslash {data : List Nat} {i : Nat} {sb : StringBuffer} (f : Nat)
    (hin : i < data.length) (hc : data.getD i 0 = 0x5C) :
    unescapeLoop data (f+1) i false sb = unescapeLoop data f (i+1) true sb := by
  simp only [unescapeLoop, hc]
  rw [if_pos hin]
  rw [if_neg (by omega : ¬ (0x80 : Nat) ≤ 0x5C)]
  rw [if_neg (by simp : ¬ (false = true))]
  rw [if_pos (by rfl : ((0x5C : Nat) == 0x5C) = true)]

theorem unescapeLoop_badEscape {data : List Nat} {i : Nat} {sb : StringBuffer} (f : Nat)
    (hin : i < data.length)
    (hnone : get_required_unescaped_char (data.getD i 0) = none) :
    unescapeLoop data (f+1) i true sb = .error .InvalidStringField := by
  simp only [unescapeLoop, hnone]
  rw [if_pos hin]
  by_cases hb : (0x80 : Nat) ≤ data.getD i 0
  · rw [if_pos hb]
  · rw [if_neg hb]
    rw [if_pos trivial]

theorem get_required_unescaped_char_none {b : Nat}
    (hnot : b ∉ [0x22, 0x5C, 0x2F, 0x62, 0x66, 0x6E, 0x72, 0x74]) :
    get_required_unescaped_char b = none := by
  simp only [List.mem_cons, List.not_mem_nil, or_false, not_or] at hnot
  obtain ⟨h1, h2, h3, h4, h5, h6, h7, h8⟩ := hnot
  unfold get_required_unescaped_char
  rw [if_neg (fun hc => h1 (beq_iff_eq.mp hc)), if_neg (fun hc => h2 (beq_iff_eq.mp hc)),
    if_neg (fun hc => h3 (beq_iff_eq.mp hc)), if_neg (fun hc => h4 (beq_iff_eq.mp hc)),
    if_neg (fun hc => h5 (beq_iff_eq.mp hc)), if_neg (fun hc => h6 (beq_iff_eq.mp hc)),
    if_neg (fun hc => h7 (beq_iff_eq.mp hc)), if_neg (fun hc => h8 (beq_iff_eq.mp hc))]

/-
Claim theorems.
-/

/-- C1: the round-trip property fails on the code.  A container built by one
successful push of the field (key a, value Number 9) serializes to the seven
bytes of the object text with value 9, but parse_json_object rejects those
bytes as InvalidStructure: the value-dispatch digit test of the source
(0x30 ≤ byte < 0x39) excludes a leading digit 9, so parse(serialize(c))
is a failure rather than a container equal to c. -/
theorem claim_C1_roundtrip_fails_on_digit_nine :
    (JsonObject.wrap [EMPTY_FIELD]).push ⟨[0x61], .Number 9⟩ =
      .ok ⟨[⟨[0x61], .Number 9⟩], 1⟩ ∧
    JsonObject.serialize_resume ⟨[⟨[0x61], .Number 9⟩], 1⟩ 0 =
      ([0x7B, 0x22, 0x61, 0x22, 0x3A, 0x39, 0x7D], 7) ∧
    parse_json_object [0x7B, 0x22, 0x61, 0x22, 0x3A, 0x39, 0x7D]
      (.Finite 0 [EMPTY_FIELD]) ⟨[], 8⟩ = .error .InvalidStructure :=
  ⟨rfl, rfl, rfl⟩

/-- C2: the parser never panics.  The checked transcriptions, in which every
unguarded index, slice and utf8 conversion of the source is modeled as a
fallible operation (none = panic), always return some ordinary result, equal
to the total transcription: for parse_json_object on every input and buffer,
and for unescape_json_string at every in-bounds entry index (the only way
the parser invokes it). -/
theorem claim_C2_parser_never_panics :
    (∀ (data : List Nat) (fb : ParseBuffer) (sb : StringBuffer),
      parse_json_object_c data fb sb = some (parse_json_object data fb sb)) ∧
    (∀ (data : List Nat) (i : Nat) (sb : StringBuffer), i < data.length →
      unescape_json_string_c i data sb = some (unescape_json_string i data sb)) :=
  ⟨parse_json_object_c_eq, fun _ _ _ h => unescape_c_eq h⟩

/-- Witness for C2 at concrete inputs: the empty object for the parser, and
a two-byte quoted empty string for the unescape routine at index 0. -/
theorem claim_C2_parser_never_panics_witness :
    parse_json_object_c [0x7B, 0x7D] (.Finite 0 []) ⟨[], 0⟩ =
      some (parse_json_object [0x7B, 0x7D] (.Finite 0 []) ⟨[], 0⟩) ∧
    unescape_json_string_c 0 [0x22, 0x22] ⟨[], 0⟩ =
      some (unescape_json_string 0 [0x22, 0x22] ⟨[], 0⟩) :=
  ⟨claim_C2_parser_never_panics.1 [0x7B, 0x7D] (.Finite 0 []) ⟨[], 0⟩,
   claim_C2_parser_never_panics.2 [0x22, 0x22] 0 ⟨[], 0⟩ (by decide)⟩

/-- C3: number parsing fails for a leading digit 9.  The input bytes of the
object text with value 9 are rejected as InvalidStructure, because the
source's dispatch test excludes byte 0x39, while the same input with value 0
parses to the single field (key a, Number 0) as the claim describes. -/
theorem claim_C3_leading_digit_nine_rejected :
    parse_json_object [0x7B, 0x22, 0x61, 0x22, 0x3A, 0x39, 0x7D]
      (.Finite 0 [EMPTY_FIELD]) ⟨[], 8⟩ = .error .InvalidStructure ∧
    parse_json_object [0x7B, 0x22, 0x61, 0x22, 0x3A, 0x30, 0x7D]
      (.Finite 0 [EMPTY_FIELD]) ⟨[], 8⟩ =
      .ok (7, 1, .Finite 1 [⟨[0x61], .Number 0⟩], ⟨[], 7⟩) :=
  ⟨rfl, rfl⟩

/-- C4: truncation is always and only Incomplete.  If the parser accepts a
byte slice consuming it entirely, then parsing any strict prefix of it, with
the same field and escape buffers, returns exactly the failure Incomplete. -/
theorem claim_C4_truncation_is_incomplete :
    ∀ (data : List Nat) (fb : ParseBuffer) (sb : StringBuffer) (n cnt : Nat)
      (fb1 : ParseBuffer) (sb1 : StringBuffer) (m : Nat),
      parse_json_object data fb sb = .ok (n, cnt, fb1, sb1) →
      n = data.length → m < data.length →
      parse_json_object (data.take m) fb sb = .error .Incomplete := by
  intro data fb sb n cnt fb1 sb1 m h hn hm
  have hmle : m ≤ data.length := Nat.le_of_lt hm
  have hlen : (data.take m).length = m := length_take_of_le hmle
  unfold parse_json_object at h ⊢
  split at h
  · exact absurd h (by simp)
  · next i0 hws =>
    obtain ⟨hi0, hi0len⟩ := skip_whitespace_ok (Nat.zero_le _) hws
    obtain ⟨hT1, hT2⟩ := skip_whitespace_take hmle (Nat.zero_le _) hws
    split at h
    · next hbr =>
      rcases Nat.lt_or_ge i0 m with him | him
      · simp only [hT1 him, getD_take_of_lt him]
        rw [if_pos hbr]
        exact parseLoop_take hm (data.length + 1) h hn (by omega)
          ((data.take m).length + 1) (by omega)
      · simp only [hT2 him]
    · exact absurd h (by simp)

/-- Witness for C4: the seven-byte object text with one field parses fully,
and its three-byte strict prefix parses to Incomplete. -/
theorem claim_C4_truncation_is_incomplete_witness :
    parse_json_object (([0x7B, 0x22, 0x61, 0x22, 0x3A, 0x30, 0x7D] : List Nat).take 3)
      (.Infinite 0 []) ⟨[], 8⟩ = .error .Incomplete :=
  claim_C4_truncation_is_incomplete [0x7B, 0x22, 0x61, 0x22, 0x3A, 0x30, 0x7D]
    (.Infinite 0 []) ⟨[], 8⟩ 7 1 (.Infinite 1 [⟨[0x61], .Number 0⟩]) ⟨[], 7⟩ 3
    rfl rfl (by decide)

/-- C5 counterexample: the claim as stated is false on the code.  An input
whose first byte is an opening square bracket is rejected as
InvalidStructure; parse_json_object has no array path at all. -/
theorem claim_C5_square_bracket_rejected :
    parse_json_object [0x5B, 0x5D] (.Finite 0 []) ⟨[], 0⟩ = .error .InvalidStructure :=
  rfl

/-- C5 amended: only an opening curly bracket starts an object scan; every
other first non-whitespace byte, the square bracket included, yields
InvalidStructure. -/
theorem claim_C5_only_curly_bracket_opens :
    ∀ (data : List Nat) (fb : ParseBuffer) (sb : StringBuffer) (j : Nat),
      skip_whitespace 0 data = .ok j →
      ((data.getD j 0 ≠ 0x7B → parse_json_object data fb sb = .error .InvalidStructure) ∧
       (data.getD j 0 = 0x7B →
         parse_json_object data fb sb = parseLoop data (data.length + 1) (j+1) false fb sb)) := by
  intro data fb sb j hws
  unfold parse_json_object
  simp only [hws]
  constructor
  · intro hne
    rw [if_neg (fun hc => hne (beq_iff_eq.mp hc))]
  · intro heq
    rw [if_pos (beq_iff_eq.mpr heq)]

/-- Witness for the amended C5 at the square-bracket input. -/
theorem claim_C5_only_curly_bracket_opens_witness :
    parse_json_object [0x5B, 0x5D] (.Finite 0 []) ⟨[], 0⟩ = .error .InvalidStructure :=
  (claim_C5_only_curly_bracket_opens [0x5B, 0x5D] (.Finite 0 []) ⟨[], 0⟩ 0 rfl).1
    (by decide)

/-- C6: resumability.  Against the non-failing sink, serializing a container
from any offset k writes exactly the byte suffix from k of the full
serialization and returns the full length minus k (saturating); in
particular any k at or past the end writes nothing and returns 0. -/
theorem claim_C6_serialize_resume_suffix :
    ∀ (o : JsonObject) (k : Nat),
      o.serialize_resume k =
        ((o.serialize_resume 0).1.drop k, (o.serialize_resume 0).1.length - k) := by
  intro o k
  unfold JsonObject.serialize_resume
  rw [serialize_json_object_eq, serialize_json_object_eq]
  simp

/-- C7: the container invariant is violated by pop.  After one successful
push into a capacity-one buffer, the source's pop decrements the count and
then reads the slot at index count + 1 of the buffer, an out-of-bounds
index: the checked transcription returns the panic outcome none instead of
a previously initialized field. -/
theorem claim_C7_pop_reads_out_of_bounds :
    (JsonObject.wrap [EMPTY_FIELD]).push ⟨[0x61], .Number 1⟩ =
      .ok ⟨[⟨[0x61], .Number 1⟩], 1⟩ ∧
    JsonObject.pop ⟨[⟨[0x61], .Number 1⟩], 1⟩ = none :=
  ⟨rfl, rfl⟩

/-- C8: capacity boundary.  Whenever a parse into the growable buffer
succeeds with cnt fields, the same parse into a fixed buffer of fewer than
cnt slots is exactly FieldBufferTooSmall, and into one of at least cnt
slots succeeds with the same consumed bytes, count and escape state. -/
theorem claim_C8_capacity_boundary :
    ∀ (data : List Nat) (sb : StringBuffer) (n cnt : Nat) (fbI : ParseBuffer)
      (sbO : StringBuffer) (slots : List JsonField),
      parse_json_object data (.Infinite 0 []) sb = .ok (n, cnt, fbI, sbO) →
      ((slots.length < cnt →
          parse_json_object data (.Finite 0 slots) sb = .error .FieldBufferTooSmall) ∧
       (cnt ≤ slots.length →
          dropBuf (parse_json_object data (.Finite 0 slots) sb) = .ok (n, cnt, sbO))) := by
  intro data sb n cnt fbI sbO slots h
  unfold parse_json_object at h ⊢
  split at h
  · exact absurd h (by simp)
  · next i hws =>
    split at h
    · next hbr =>
      rw [if_pos hbr]
      constructor
      · intro hlt
        exact parseLoop_fin_small _ h (Nat.zero_le _) hlt
      · intro hle
        exact parseLoop_fin_fits _ h (Nat.zero_le _) hle
    · exact absurd h (by simp)

/-- Witness for C8: one field into capacity zero is FieldBufferTooSmall; one
field into capacity one succeeds with one field parsed. -/
theorem claim_C8_capacity_boundary_witness :
    parse_json_object [0x7B, 0x22, 0x61, 0x22, 0x3A, 0x30, 0x7D]
      (.Finite 0 []) ⟨[], 8⟩ = .error .FieldBufferTooSmall ∧
    dropBuf (parse_json_object [0x7B, 0x22, 0x61, 0x22, 0x3A, 0x30, 0x7D]
      (.Finite 0 [EMPTY_FIELD]) ⟨[], 8⟩) = .ok (7, 1, ⟨[], 7⟩) :=
  ⟨(claim_C8_capacity_boundary [0x7B, 0x22, 0x61, 0x22, 0x3A, 0x30, 0x7D] ⟨[], 8⟩
      7 1 (.Infinite 1 [⟨[0x61], .Number 0⟩]) ⟨[], 7⟩ [] rfl).1 (by decide),
   (claim_C8_capacity_boundary [0x7B, 0x22, 0x61, 0x22, 0x3A, 0x30, 0x7D] ⟨[], 8⟩
      7 1 (.Infinite 1 [⟨[0x61], .Number 0⟩]) ⟨[], 7⟩ [EMPTY_FIELD] rfl).2 (by decide)⟩

/-- C9: escape-table bidirectionality.  Every character of the eight-entry
table escapes to a backslash followed by a marker byte that unescapes back
to exactly that character; every byte outside the eight marker bytes has no
unescape entry, and a backslash followed by any such byte inside a string
makes unescape_json_string return InvalidStringField (ASCII bytes through
the missing table entry, non-ASCII bytes through the loop's ASCII check,
which raises the same error). -/
theorem claim_C9_escape_table_inverse :
    (∀ p ∈ [(0x22, 0x22), (0x5C, 0x5C), (0x2F, 0x2F), (0x08, 0x62), (0x0C, 0x66),
        (0x0A, 0x6E), (0x0D, 0x72), (0x09, 0x74)],
      get_required_escape_sequence p.1 = some [0x5C, p.2] ∧
        get_required_unescaped_char p.2 = some p.1) ∧
    (∀ (b : Nat), b ∉ [0x22, 0x5C, 0x2F, 0x62, 0x66, 0x6E, 0x72, 0x74] →
      get_required_unescaped_char b = none) ∧
    (∀ (b : Nat) (rest : List Nat) (sb : StringBuffer),
      b ∉ [0x22, 0x5C, 0x2F, 0x62, 0x66, 0x6E, 0x72, 0x74] →
      unescape_json_string 0 (0x22 :: 0x5C :: b :: rest) sb =
        .error .InvalidStringField) := by
  refine ⟨by decide, fun b hnot => get_required_unescaped_char_none hnot, ?_⟩
  intro b rest sb hnot
  have hnone : get_required_unescaped_char b = none :=
    get_required_unescaped_char_none hnot
  unfold unescape_json_string
  rw [if_pos (by rfl : (((0x22 :: 0x5C :: b :: rest) : List Nat).getD 0 0 == 0x22) = true)]
  have hlen : ((0x22 :: 0x5C :: b :: rest) : List Nat).length = rest.length + 3 := by
    simp only [List.length_cons]
    try omega
  rw [hlen]
  rw [unescapeLoop_backslash (rest.length + 3)
    (show (1:Nat) < ((0x22 :: 0x5C :: b :: rest) : List Nat).length by
      simp only [List.length_cons]; try omega)
    (show ((0x22 :: 0x5C :: b :: rest) : List Nat).getD 1 0 = 0x5C from rfl)]
  exact unescapeLoop_badEscape (rest.length + 2)
    (show (2:Nat) < ((0x22 :: 0x5C :: b :: rest) : List Nat).length by
      simp only [List.length_cons]; try omega)
    hnone

/-- Witness for C9 at two concrete bytes outside the escape table: the ASCII
byte x (0x78) and the non-ASCII byte 0x80. -/
theorem claim_C9_escape_table_inverse_witness :
    unescape_json_string 0 [0x22, 0x5C, 0x78] ⟨[], 4⟩ = .error .InvalidStringField ∧
    unescape_json_string 0 [0x22, 0x5C, 0x80] ⟨[], 4⟩ = .error .InvalidStringField :=
  ⟨claim_C9_escape_table_inverse.2.2 0x78 [] ⟨[], 4⟩ (by decide),
   claim_C9_escape_table_inverse.2.2 0x80 [] ⟨[], 4⟩ (by decide)⟩

/-- C10: pop is not the inverse of push on the code.  With a capacity-two
buffer, after a successful push of a field the source's pop returns the
sentinel content of the uninitialized slot at index len, not the pushed
field at index len - 1; and with a capacity-one buffer the same read is out
of bounds (the checked transcription returns the panic outcome none). -/
theorem claim_C10_pop_returns_wrong_slot :
    (JsonObject.wrap [EMPTY_FIELD, EMPTY_FIELD]).push ⟨[0x61], .Number 1⟩ =
      .ok ⟨[⟨[0x61], .Number 1⟩, EMPTY_FIELD], 1⟩ ∧
    JsonObject.pop ⟨[⟨[0x61], .Number 1⟩, EMPTY_FIELD], 1⟩ =
      some (some (EMPTY_FIELD, ⟨[⟨[0x61], .Number 1⟩, EMPTY_FIELD], 0⟩)) ∧
    EMPTY_FIELD ≠ (⟨[0x61], .Number 1⟩ : JsonField) ∧
    JsonObject.pop ⟨[⟨[0x61], .Number 1⟩], 1⟩ = none :=
  ⟨rfl, rfl, by decide, rfl⟩

end LilJson
